import Mathlib

/-!
Verification development for the process-management and kernel-memory core
of the xv6-sifive kernel (files `proc.c` and the slab allocator `kalloc.c`).

The C code is shallowly embedded: machine words are modelled as `Nat`
(addresses and counters in the kernel stay far below 2^64; sub-word
narrowing such as the `uint8` free-list indices is modelled with explicit
`% 256` where the C program narrows), pointers are modelled as numeric
addresses with `0` as `NULL`, and the fallible C functions return `Option`.

The page allocator (`allocpage`/`freepage`, file `pm.c`, a collaborator of
this core) is modelled as a counter of available pages plus a strictly
increasing fresh page address; it satisfies the collaborator contract that
an allocated page is page-aligned, nonzero, and distinct from every page
currently allocated.  None of the proved claims depend on address reuse.
-/

namespace XV6

/-! ## Slab allocator: constants (src/unnamed/part_001, lines 16-20, 36-37, 52, 57-61, 100-102) -/

def PGSIZE : Nat := 4096

/-- `#define KMEM_OBJ_MIN_SIZE ((uint64)32)` -/
def KMEM_OBJ_MIN_SIZE : Nat := 32

/-- `#define KMEM_OBJ_MAX_SIZE ((uint64)4048)` -/
def KMEM_OBJ_MAX_SIZE : Nat := 4048

/-- `#define KMEM_OBJ_MAX_COUNT (PGSIZE / KMEM_OBJ_MIN_SIZE)` -/
def KMEM_OBJ_MAX_COUNT : Nat := PGSIZE / KMEM_OBJ_MIN_SIZE

/-- `#define TABLE_END 255` -/
def TABLE_END : Nat := 255

/-- `#define KMEM_NODE_FIX (sizeof(struct kmem_node*) + 2*sizeof(uint64) + 2*sizeof(int8))`
    = 8 + 16 + 2 = 26 on RV64. -/
def KMEM_NODE_FIX : Nat := 26

/-- `#define ROUNDUP16(n) (((n) + 15) & ~0x0f)` — for natural numbers this is
    rounding up to the next multiple of 16. -/
def ROUNDUP16 (n : Nat) : Nat := (n + 15) / 16 * 16

/-- `#define _calc_capa(roundup_size) ((PGSIZE - ROUNDUP16(KMEM_NODE_FIX)) / ((roundup_size) + 1))` -/
def calc_capa (roundup_size : Nat) : Nat :=
  (PGSIZE - ROUNDUP16 KMEM_NODE_FIX) / (roundup_size + 1)

/-- Modelled from the spec: `sizeof(struct kmem_allocator)` — the struct
    declaration's headers (`spinlock.h`, `types.h`) are not under src/, so the
    exact byte size is not determined by the sources.  The struct holds a
    three-word spinlock, a `uint`, two `uint16` and two pointers, i.e. 48
    bytes on RV64; the spec only requires the bootstrap ("Adam") instance to
    be "sized exactly to hold one allocator-instance structure", and no claim
    depends on the concrete value. -/
def sizeofKmemAllocator : Nat := 48

/-- The object size served by the bootstrap allocator:
    `kmem_adam.obj_size = ROUNDUP16(sizeof(struct kmem_allocator))`. -/
def adamSize : Nat := ROUNDUP16 sizeofKmemAllocator

/-! ## Slab allocator: data model (`struct kmem_node`, `struct kmem_allocator`) -/

/-- `struct kmem_node` (lines 21-33): one whole page formatted as a slab.
    `base` is the page's own address (the node header sits at the start of the
    page); `objSize`/`objAddr` are the `config` fields; `avail` is the
    free-list head index; `cnt` the live-object count; `table` the free-list
    index table (only the first `capa` entries are ever initialized by the C
    code, so the model carries exactly those). -/
structure KNode where
  base : Nat
  objSize : Nat
  objAddr : Nat
  avail : Nat
  cnt : Nat
  table : List Nat
deriving Repr, DecidableEq

/-- `struct kmem_allocator` (lines 39-47).  The `list` field holds the page
    base addresses of the nodes on the "has space" list, front first. -/
structure KAlloc where
  obj_size : Nat
  npages : Nat
  nobjs : Nat
  list : List Nat
deriving Repr, DecidableEq

/-- Global state of the allocation subsystem.  `allocs` flattens the hash
    table `kmem_table` (lookup in the C code is by exact `obj_size` within a
    bucket, and sizes are unique across the table, so a single association
    list keyed by `obj_size` is observationally the same); `nodes` holds
    every currently existing slab node of every allocator, keyed by page
    base (`kfree` reaches nodes by `PGROUNDDOWN`, not through the lists).
    `pagesAvail`/`nextPage`/`freedPages` model the page-allocator
    collaborator: its free-page count, a fresh-address counter, and a count
    of `freepage` calls made by this subsystem. -/
structure KState where
  allocs : List KAlloc
  nodes : List KNode
  pagesAvail : Nat
  nextPage : Nat
  freedPages : Nat
deriving Repr, DecidableEq

/-- `kmem_adam` after `kmallocinit()` (lines 65-84). -/
def adamAlloc : KAlloc := { obj_size := adamSize, npages := 0, nobjs := 0, list := [] }

/-- The subsystem state right after `kmallocinit()`, with `budget` free pages
    held by the page allocator. -/
def kmallocInit (budget : Nat) : KState :=
  { allocs := [adamAlloc], nodes := [], pagesAvail := budget, nextPage := 0, freedPages := 0 }

/-! ## Slab allocator: operations -/

/-- Collaborator `allocpage()` (pm.c): take one page from the page allocator,
    or fail if none is available.  Returned pages are page-aligned, nonzero
    and pairwise distinct. -/
def allocpage (st : KState) : Option (Nat × KState) :=
  if st.pagesAvail = 0 then none
  else some (PGSIZE * (st.nextPage + 1),
    { st with pagesAvail := st.pagesAvail - 1, nextPage := st.nextPage + 1 })

/-- Collaborator `freepage(p)` (pm.c): return one page to the page allocator. -/
def freepage (st : KState) : KState :=
  { st with pagesAvail := st.pagesAvail + 1, freedPages := st.freedPages + 1 }

/-- Lookup of an allocator instance by (already rounded) object size — in the
    C code, the walk of the hash bucket `kmem_table[_hash(size)]` comparing
    `obj_size` (lines 112-117). -/
def allocFind (st : KState) (r : Nat) : Option KAlloc :=
  st.allocs.find? (fun A => A.obj_size = r)

/-- Update the (unique) allocator instance with object size `r`. -/
def allocUpd (st : KState) (r : Nat) (f : KAlloc → KAlloc) : KState :=
  { st with allocs := st.allocs.map (fun A => if A.obj_size = r then f A else A) }

/-- Lookup of a slab node by page base — in the C code this is the
    `PGROUNDDOWN` pointer cast of `kfree`, or following a list link. -/
def nodeFind (st : KState) (b : Nat) : Option KNode :=
  st.nodes.find? (fun n => n.base = b)

/-- Update the (unique) slab node whose page base is `b`. -/
def nodeUpd (st : KState) (b : Nat) (n' : KNode) : KState :=
  { st with nodes := st.nodes.map (fun n => if n.base = b then n' else n) }

/-- Remove the slab node whose page base is `b`. -/
def nodeRemove (st : KState) (b : Nat) : KState :=
  { st with nodes := st.nodes.filter (fun n => ¬ n.base = b) }

/-- The free-list table of a freshly formatted node (lines 190-193):
    `table[i] = i+1` for `i < capa - 1` and `table[capa-1] = TABLE_END`. -/
def freshTable (capa : Nat) : List Nat :=
  (List.range capa).map (fun i => if i + 1 = capa then TABLE_END else i + 1)

/-- Formatting of a fresh page as a slab node (lines 182-193).  The C code
    stores `capa` into a `uint8`, hence the `% 256`. -/
def freshNode (b r : Nat) : KNode :=
  let capa := calc_capa r % 256
  { base := b, objSize := r,
    objAddr := b + ROUNDUP16 (KMEM_NODE_FIX + capa),
    avail := 0, cnt := 0, table := freshTable capa }

/-- The tail of `kmalloc` once the allocator's list is known non-empty
    (lines 198-212): take the object at the front node's free-list head,
    advance the head, bump the counts, and unlink the node if it became
    full. -/
def takeFromFront (r : Nat) (st : KState) : Option (Nat × KState) :=
  match allocFind st r with
  | none => none
  | some A =>
    match A.list with
    | [] => none
    | b :: rest =>
      match nodeFind st b with
      | none => none
      | some n =>
        let ret := n.objAddr + n.avail * n.objSize
        let avail' := n.table.getD n.avail 0
        let n' := { n with cnt := n.cnt + 1, avail := avail' }
        let st1 := nodeUpd st b n'
        let st2 :=
          if avail' = TABLE_END then
            allocUpd st1 r (fun B => { B with nobjs := B.nobjs + 1, list := rest })
          else
            allocUpd st1 r (fun B => { B with nobjs := B.nobjs + 1 })
        some (ret, st2)

/-- The body of `kmalloc` after `get_allocator` has produced the allocator
    instance for rounded size `r` (lines 169-217): if the "has space" list is
    empty, obtain and format one fresh page (failing if the page allocator
    fails), then serve the object from the front node.  The `none` of the
    `allocFind` miss is unreachable for the C code's callers (the allocator
    pointer is in hand there). -/
def allocObjCore (r : Nat) (st : KState) : Option (Nat × KState) :=
  match allocFind st r with
  | none => none
  | some A =>
    match A.list with
    | _ :: _ => takeFromFront r st
    | [] =>
      match allocpage st with
      | none => none
      | some (b, st1) =>
        let node := freshNode b r
        let st2 := { st1 with nodes := node :: st1.nodes }
        let st3 := allocUpd st2 r (fun B => { B with npages := B.npages + 1, list := [b] })
        takeFromFront r st3

/-- `get_allocator(raw_size)` (lines 106-149): look the rounded size up; on a
    miss, create the instance, allocating its backing object from the
    bootstrap ("Adam") size class — in the C code this is
    `_malloc_allocator()`, a recursive `kmalloc(sizeof(struct kmem_allocator))`
    which necessarily finds `kmem_adam` in the table (registered at init and
    never removed, so the recursion is one level deep; were the Adam class
    missing, the C code would recurse forever, which the model renders as
    failure).  Returns the rounded size, which keys the instance. -/
def get_allocator (raw_size : Nat) (st : KState) : Option (Nat × KState) :=
  let r := ROUNDUP16 raw_size
  match allocFind st r with
  | some _ => some (r, st)
  | none =>
    match allocObjCore adamSize st with
    | none => none
    | some (_addr, st1) =>
      some (r, { st1 with allocs := st1.allocs ++ [⟨r, 0, 0, []⟩] })

/-- `kmalloc(size)` (lines 151-218): clamp a too-small size up to
    `KMEM_OBJ_MIN_SIZE` (diagnostic only), reject a size above
    `KMEM_OBJ_MAX_SIZE`, get the allocator instance, and serve one object.
    Failure returns `none` with the observable allocator state of the failing
    C path. -/
def kmalloc (size : Nat) (st : KState) : Option Nat × KState :=
  let sz := if size < KMEM_OBJ_MIN_SIZE then KMEM_OBJ_MIN_SIZE else size
  if KMEM_OBJ_MAX_SIZE < sz then (none, st)
  else
    match get_allocator sz st with
    | none => (none, st)
    | some (r, st1) =>
      match allocObjCore r st1 with
      | none => (none, st1)
      | some (a, st2) => (some a, st2)

/-- `PGROUNDDOWN` of riscv.h. -/
def PGROUNDDOWN (a : Nat) : Nat := a / PGSIZE * PGSIZE

/-- `kfree(addr)` (lines 222-279).  The containing node is recovered by
    `PGROUNDDOWN`; the object's index by address arithmetic truncated to
    `uint8`; the node's allocator by `get_allocator` on the node's recorded
    size.  If the node was full it is relinked ("pickup"); the index is
    pushed on the node's free list; if the live count reaches zero the node
    is scanned out of the allocator's list — the model returns `none` where
    the C code would `panic` on a failed scan — and its page is returned.
    A `nodeFind` miss corresponds to the C code dereferencing a page that is
    not a slab node, which is the undefined behaviour of an invalid free. -/
def kfree (addr : Nat) (st : KState) : Option KState :=
  match nodeFind st (PGROUNDDOWN addr) with
  | none => none
  | some n =>
    let b := n.base
    let idx := ((addr - n.objAddr) / n.objSize) % 256
    match get_allocator n.objSize st with
    | none => none
    | some (r, st1) =>
      let st2 := allocUpd st1 r (fun A => { A with nobjs := A.nobjs - 1 })
      let st3 :=
        if n.avail = TABLE_END then
          allocUpd st2 r (fun A => { A with list := b :: A.list })
        else st2
      let n' := { n with table := n.table.set idx n.avail, avail := idx, cnt := n.cnt - 1 }
      let st4 := nodeUpd st3 b n'
      if n'.cnt = 0 then
        match allocFind st4 r with
        | none => none
        | some A =>
          if b ∈ A.list then
            some (freepage (nodeRemove
              (allocUpd st4 r (fun B => { B with list := B.list.erase b, npages := B.npages - 1 })) b))
          else none
      else some st4

/-! ## Slab allocator: free-list semantics and invariants

The per-node free list is "a singly-linked list realized as byte indices
into the table": `Chain t a l` says that following the table `t` from head
index `a` visits exactly the indices `l` and ends at the `TABLE_END`
sentinel.  An object slot is live when it is not on its node's free list. -/

inductive Chain (t : List Nat) : Nat → List Nat → Prop where
  | nil : Chain t TABLE_END []
  | cons (i : Nat) (rest : List Nat) (hi : i < t.length)
      (h : Chain t (t.getD i 0) rest) : Chain t i (i :: rest)

/-- Object slot `i` of node `n` is live: a valid slot index that is not on
    the node's free list. -/
def LiveIdx (n : KNode) (i : Nat) : Prop :=
  i < n.table.length ∧ ∀ l, Chain n.table n.avail l → i ∉ l

/-- Address `a` is a currently-live object of the subsystem. -/
def isLive (st : KState) (a : Nat) : Prop :=
  ∃ n, n ∈ st.nodes ∧ ∃ i, LiveIdx n i ∧ a = n.objAddr + i * n.objSize

/-- Address `a` is a currently-live object of size class `c`. -/
def isLiveOf (st : KState) (c a : Nat) : Prop :=
  ∃ n, n ∈ st.nodes ∧ n.objSize = c ∧ ∃ i, LiveIdx n i ∧ a = n.objAddr + i * n.objSize

/-- `a` lies in the object region of slab node `n` (on an object boundary). -/
def inRegion (n : KNode) (a : Nat) : Prop :=
  ∃ i, i < n.table.length ∧ a = n.objAddr + i * n.objSize

/-- The number of slab pages currently backing size class `c`. -/
def classPages (st : KState) (c : Nat) : Nat :=
  (st.nodes.filter (fun n => n.objSize = c)).length

/-- Well-formedness of one slab node, exactly as `kmalloc` formats it:
    a page-aligned nonzero base, a 16-aligned in-range object size, the
    capacity and object-region base of the source's formulas, and a
    duplicate-free free list accounting for every slot not live. -/
structure NodeWF (n : KNode) : Prop where
  size_min : KMEM_OBJ_MIN_SIZE ≤ n.objSize
  size_max : n.objSize ≤ KMEM_OBJ_MAX_SIZE
  size_align : n.objSize % 16 = 0
  base_align : n.base % PGSIZE = 0
  base_pos : 0 < n.base
  capa_eq : n.table.length = calc_capa n.objSize
  addr_eq : n.objAddr = n.base + ROUNDUP16 (KMEM_NODE_FIX + n.table.length)
  chain : ∃ l, Chain n.table n.avail l ∧ l.Nodup ∧ n.cnt + l.length = n.table.length

/-- The global allocator invariant: well-formed allocator instances with
    pairwise-distinct size classes (the bootstrap class among them),
    well-formed slab nodes on pairwise-distinct pages handed out by the page
    allocator, every node belonging to a registered class, and every
    "has space" list holding exactly its class's non-full nodes; `npages`
    counts the class's nodes, and a node with no live object never remains
    (it is returned to the page allocator at once). -/
structure KInvB (st : KState) : Prop where
  adam_mem : ∃ A, A ∈ st.allocs ∧ A.obj_size = adamSize
  sizes_nodup : (st.allocs.map KAlloc.obj_size).Nodup
  alloc_wf : ∀ A, A ∈ st.allocs →
    KMEM_OBJ_MIN_SIZE ≤ A.obj_size ∧ A.obj_size ≤ KMEM_OBJ_MAX_SIZE ∧ A.obj_size % 16 = 0
  node_wf : ∀ n, n ∈ st.nodes → NodeWF n
  bases_nodup : (st.nodes.map KNode.base).Nodup
  bases_bound : ∀ n, n ∈ st.nodes → n.base ≤ PGSIZE * st.nextPage
  node_alloc : ∀ n, n ∈ st.nodes → ∃ A, A ∈ st.allocs ∧ A.obj_size = n.objSize
  list_nodes : ∀ A, A ∈ st.allocs → ∀ b, b ∈ A.list →
    ∃ n, n ∈ st.nodes ∧ n.base = b ∧ n.objSize = A.obj_size
  list_nodup : ∀ A, A ∈ st.allocs → A.list.Nodup
  list_iff : ∀ A, A ∈ st.allocs → ∀ n, n ∈ st.nodes → n.objSize = A.obj_size →
    (n.base ∈ A.list ↔ ¬ n.avail = TABLE_END)
  npages_eq : ∀ A, A ∈ st.allocs → A.npages = classPages st A.obj_size

/-- The full invariant adds: a node with no live object never remains (the
    code frees its page at once), so every node carries at least one live
    object.  (A freshly formatted node has `cnt = 0` only inside the body of
    `kmalloc`, which allocates from it before returning.) -/
structure KInv (st : KState) extends KInvB st : Prop where
  node_cnt : ∀ n, n ∈ st.nodes → 0 < n.cnt

/-- What one successful object allocation from size class `r` establishes:
    the invariant is maintained; the returned address is 16-aligned, was not
    live before the call, and is exactly the one new live object (of class
    `r`); it lies in the object region of a node of the class; and the
    allocation created no new size class and returned no page. -/
structure AllocStep (st : KState) (r a : Nat) (st' : KState) : Prop where
  inv' : KInv st'
  fresh : ¬ isLive st a
  align : a % 16 = 0
  live_iff : ∀ x, isLive st' x ↔ (x = a ∨ isLive st x)
  liveOf_iff : ∀ c x, isLiveOf st' c x ↔ ((c = r ∧ x = a) ∨ isLiveOf st c x)
  node_ex : ∃ m, m ∈ st'.nodes ∧ m.objSize = r ∧ inRegion m a
  sizes_eq : st'.allocs.map KAlloc.obj_size = st.allocs.map KAlloc.obj_size
  freed_eq : st'.freedPages = st.freedPages

/-- The allocator states reachable from initialization by the subsystem's
    own interface: `kmalloc` with any size, and `kfree` on a live object
    (the C code declares a free of anything else undefined behaviour). -/
inductive KReach : KState → Prop where
  | init (budget : Nat) : KReach (kmallocInit budget)
  | stepMalloc {st : KState} (size : Nat) : KReach st → KReach (kmalloc size st).2
  | stepFree {st st' : KState} (a : Nat) :
      KReach st → isLive st a → kfree a st = some st' → KReach st'

/-- A sequence of `kfree` calls, stopping at the consistency panic. -/
def kfreeSeq : List Nat → KState → Option KState
  | [], st => some st
  | a :: rest, st =>
    match kfree a st with
    | none => none
    | some st' => kfreeSeq rest st'

/-! ## Process table: data model (src/src/proc.c and its `struct proc`)

The headers (`proc.h`, `param.h`) are not under src/; the `struct proc`
fields and the state enumeration are taken from their uses in `proc.c`.
`NPROC` (the table capacity) is kept as an explicit parameter — the table is
modelled as a list of descriptors of that length; `NOFILE` and `SIGSET_LEN`
are fixed constants whose concrete values no claim depends on. -/

/-- Modelled from the spec: `NOFILE`, the fixed capacity of the
    open-file-descriptor table (`param.h` is not under src/).  Its concrete
    value is immaterial to every claim; the theorems about the
    open-file-table zero-fill overrun are stated for the general value where
    it matters. -/
def NOFILE : Nat := 16

/-- Modelled from the spec: `SIGSET_LEN` of the signal headers (not under
    src/); the pending-signal bitset word count. -/
def SIGSET_LEN : Nat := 1

/-- Modelled from the spec: the link address of `forkret` — an opaque
    nonzero code address; only its being stored into `context.ra` matters. -/
def forkretAddr : Nat := 1

/-- `enum procstate` of proc.h; `proc.c` uses `UNUSED`, `RUNNABLE` and
    `RUNNING`, the spec names `SLEEPING` and `ZOMBIE` as well. -/
inductive Procstate where
  | UNUSED | SLEEPING | RUNNABLE | RUNNING | ZOMBIE
deriving Repr, DecidableEq, Inhabited

/-- `struct proc`, restricted to the fields `proc.c` reads or writes.
    Pointers are numeric addresses with `0` for `NULL`; the open-file table
    is carried by value (`none` = null pointer, `some l` = the `NOFILE`
    pointer slots the table holds); `name` is the character array, `0` being
    the C string terminator. -/
structure Proc where
  state : Procstate
  pid : Nat
  killed : Nat
  filelimit : Nat
  robust_list : Nat
  clear_child_tid : Nat
  set_child_tid : Nat
  vma : Nat
  trapframe : Nat
  kstack : Nat
  pagetable : Nat
  ofile : Option (List Nat)
  ctx_ra : Nat
  ctx_sp : Nat
  tms_utime : Nat
  tms_stime : Nat
  tms_cutime : Nat
  tms_cstime : Nat
  sig_act : Nat
  sig_frame : Nat
  sig_pending : List Nat
  name : List Nat
  parent : Nat
  chan : Nat
  xstate : Nat
  sz : Nat
deriving Repr, DecidableEq, Inhabited

/-- `p->name[0] = 0` (proc.c line 112): only the first character is written. -/
def setName0 : List Nat → List Nat
  | [] => []
  | _ :: t => 0 :: t

/-- A C string stored in a fixed buffer is empty when its first character is
    the terminator. -/
def cstrEmpty (s : List Nat) : Prop := s.headD 0 = 0

instance (s : List Nat) : Decidable (cstrEmpty s) := by
  unfold cstrEmpty; infer_instance

/-- `freeproc(p)` (proc.c lines 91-123): release the trapframe page, the
    open-file table object, the kernel-stack page and the page table, then
    clear the scalar fields and mark the slot `UNUSED`.  Note three fields
    the C code releases but does **not** clear: `p->kstack` (lines 100-101
    free the page and leave the field), `p->sig_act` and `p->sig_frame`
    (lines 119 and 122 hand the pointers to the signal collaborator and
    leave the fields). -/
def freeproc (p : Proc) : Proc :=
  { p with
    trapframe := 0
    ofile := none
    pagetable := 0
    vma := 0
    robust_list := 0
    sz := 0
    pid := 0
    parent := 0
    name := setName0 p.name
    chan := 0
    killed := 0
    xstate := 0
    state := .UNUSED }

/-- The process-table state: the fixed table (one `Proc` per slot) and the
    PID counter `nextpid` (proc.c lines 20, 25). -/
structure PTState where
  procs : List Proc
  nextpid : Nat
deriving Repr, DecidableEq

/-- `allocpid()` (proc.c lines 78-86): under `pid_lock`, return the counter
    and increment it. -/
def allocpid (nextpid : Nat) : Nat × Nat := (nextpid, nextpid + 1)

/-- Results of the collaborator allocations `allocproc` performs, in program
    order: the trapframe page (`allocpage`), the kernel-stack page
    (`allocpage`), `proc_pagetable` (`kvmcreate` plus `vma_list_init`,
    delivering the page-table handle and the fresh empty-VMA-list head), and
    the open-file table (`kmalloc`).  `none` is the collaborator failing. -/
structure AllocOracle where
  tf : Option Nat
  ks : Option Nat
  pt : Option (Nat × Nat)
  ofile : Option Nat
deriving Repr, DecidableEq

/-- How one `allocproc()` call ends.  In the C code `noSlot` and `allocFail`
    are both the `NULL` return (the caller cannot tell them apart);
    `panicked` is the `panic("proc ofile init\n")` of line 171, which never
    returns. -/
inductive AllocRes where
  | ok (slot : Nat)
  | noSlot
  | allocFail
  | panicked
deriving Repr, DecidableEq

/-- The table scan of `allocproc` (lines 134-141): slots are tried in table
    order, each lock transiently acquired; the first slot whose state is
    `UNUSED` is kept (lock still held). -/
def findUnused : List Proc → Option Nat
  | [] => none
  | p :: ps =>
    if p.state = Procstate.UNUSED then some 0
    else (findUnused ps).map (· + 1)

/-- `allocproc()` (proc.c lines 129-201), sequential semantics, with the
    collaborator allocations supplied by the oracle `o`:
    * no free slot: return `NULL`, no state created;
    * found: consume a pid, reset the caller-visible fields (lines 145-151);
    * trapframe page allocation failure: release the lock and return `NULL`
      (lines 153-156) — the already written fields stay, the state stays
      `UNUSED`;
    * the kernel-stack `allocpage()` result is stored **unchecked**
      (line 158): a failure stores the null pointer and execution continues;
    * `proc_pagetable` failure: `freeproc(p)`, release, `NULL` (lines
      163-167);
    * open-file-table `kmalloc` failure: `panic` (lines 169-172); on success
      the table is zero-filled (the fd loop of lines 174-176; the
      out-of-bounds `memset` of line 177 is treated in the slab model) and
      context/times/signal fields are initialized (lines 186-199).
    Note `allocproc` never writes `p->state`. -/
def allocproc (o : AllocOracle) (st : PTState) : AllocRes × PTState :=
  match findUnused st.procs with
  | none => (.noSlot, st)
  | some i =>
    let p0 := st.procs.getD i default
    let pid := st.nextpid
    let p1 := { p0 with
      pid := pid, killed := 0, filelimit := NOFILE,
      robust_list := 0, clear_child_tid := 0, set_child_tid := 0, vma := 0 }
    let st1 : PTState := { procs := st.procs.set i p1, nextpid := st.nextpid + 1 }
    match o.tf with
    | none => (.allocFail, st1)
    | some tfp =>
      let p2 := { p1 with trapframe := tfp, kstack := o.ks.getD 0 }
      match o.pt with
      | none => (.allocFail, { st1 with procs := st1.procs.set i (freeproc p2) })
      | some ptv =>
        let p3 := { p2 with pagetable := ptv.1, vma := ptv.2 }
        match o.ofile with
        | none => (.panicked, { st1 with procs := st1.procs.set i p3 })
        | some _ =>
          let p4 := { p3 with
            ofile := some (List.replicate NOFILE 0),
            ctx_ra := forkretAddr, ctx_sp := p3.kstack + PGSIZE,
            tms_utime := 0, tms_stime := 0, tms_cutime := 1, tms_cstime := 1,
            sig_act := 0, sig_frame := 0,
            sig_pending := List.replicate SIGSET_LEN 0, killed := 0 }
          (.ok i, { st1 with procs := st1.procs.set i p4 })

/-- `memset(p->ofile, 0, PGSIZE)` (proc.c line 177): the length of the
    zero-fill the code performs on the freshly kmalloc'ed open-file table. -/
def ofileMemsetLen : Nat := PGSIZE

/-- The byte interval `[a, a+len)` a `memset(a, 0, len)` writes. -/
def writesByte (a len x : Nat) : Prop := a ≤ x ∧ x < a + len

instance (a len x : Nat) : Decidable (writesByte a len x) := by
  unfold writesByte; infer_instance

/-! ## Scheduler (proc.c lines 42-76) -/

/-- State visible to one iteration of the `scheduler()` loop: the single
    staged-process slot `runproc` (a table index, `none` for the C null
    pointer), the unit's current-process marker `c->proc`, and the process
    table. -/
structure SchedState where
  runproc : Option Nat
  cpuProc : Option Nat
  procs : List Proc
deriving Repr, DecidableEq

/-- What one loop iteration did. -/
inductive SchedEvent where
  /-- the staged process was still `RUNNABLE` under its lock: it was marked
      `RUNNING`, recorded as the unit's current process, its address space
      installed, and `swtch` entered. -/
  | switched (slot : Nat)
  /-- a process was staged but its state was no longer `RUNNABLE` when its
      lock was acquired: the lock is released and the loop continues. -/
  | skipped (slot : Nat)
  /-- nothing was staged: interrupts on, `wfi`. -/
  | idled
deriving Repr, DecidableEq

/-- One iteration of the `scheduler()` loop up to the `swtch` decision
    (lines 47-61; what the switched-into process later does is its own
    code).  The staged slot is taken and cleared first (lines 47-48); the
    process's state is then examined under its freshly acquired lock —
    in this sequential embedding the `procs` passed in are the values
    observed at that acquisition. -/
def schedulerIter (st : SchedState) : SchedEvent × SchedState :=
  match st.runproc with
  | none => (.idled, { st with runproc := none })
  | some i =>
    let p := st.procs.getD i default
    if p.state = Procstate.RUNNABLE then
      (.switched i,
        { runproc := none, cpuProc := some i,
          procs := st.procs.set i { p with state := .RUNNING } })
    else
      (.skipped i, { st with runproc := none })

/-! ## Derived scenarios used by the claims -/

/-- `allocpid()` called `k` times in a row, threading the `nextpid` counter:
    the list of returned pids and the final counter. -/
def allocpids : Nat → Nat → List Nat × Nat
  | 0, n => ([], n)
  | k + 1, n =>
    let r := allocpid n
    let rest := allocpids k r.2
    (r.1 :: rest.1, rest.2)

/-- `freeproc` applied to table slot `i` (the table-level view; `freeproc`
    itself never touches the PID counter). -/
def freeprocAt (st : PTState) (i : Nat) : PTState :=
  { st with procs := st.procs.set i (freeproc (st.procs.getD i default)) }

/-- One full allocation round as every caller in the source performs it
    (`userinit`, proc.c lines 243-259): call `allocproc()`; on success the
    caller makes the new process visible — sets its state to `RUNNABLE` —
    and releases the slot's lock before anything else can scan the table. -/
def allocRound (o : AllocOracle) (st : PTState) : Option Nat × PTState :=
  match allocproc o st with
  | (.ok i, st') =>
    (some i,
      { st' with procs :=
          st'.procs.set i { st'.procs.getD i default with state := Procstate.RUNNABLE } })
  | (_, st') => (none, st')

/-- `k` allocation rounds in sequence, collecting the returned slots. -/
def allocRounds (o : AllocOracle) : Nat → PTState → List (Option Nat) × PTState
  | 0, st => ([], st)
  | k + 1, st =>
    let r := allocRound o st
    let rest := allocRounds o k r.2
    (r.1 :: rest.1, rest.2)

/-- A process descriptor with every field zero and the slot free — the
    contents of the static `struct proc proc[NPROC]` table at boot. -/
def zeroProc : Proc where
  state := .UNUSED
  pid := 0
  killed := 0
  filelimit := 0
  robust_list := 0
  clear_child_tid := 0
  set_child_tid := 0
  vma := 0
  trapframe := 0
  kstack := 0
  pagetable := 0
  ofile := none
  ctx_ra := 0
  ctx_sp := 0
  tms_utime := 0
  tms_stime := 0
  tms_cutime := 0
  tms_cstime := 0
  sig_act := 0
  sig_frame := 0
  sig_pending := List.replicate SIGSET_LEN 0
  name := List.replicate 16 0
  parent := 0
  chan := 0
  xstate := 0
  sz := 0

/-- A two-slot process table at boot. -/
def bootTable2 : PTState := { procs := [zeroProc, zeroProc], nextpid := 1 }

/-- An oracle on which every collaborator allocation succeeds. -/
def allOkOracle : AllocOracle :=
  { tf := some 11, ks := some 22, pt := some (33, 44), ofile := some 55 }

/-- A descriptor of a terminated occupant about to be reaped: nonzero kernel
    stack, signal-action table and signal-frame list pointers, a name, and
    live scalar state. -/
def deadOccupant : Proc :=
  { zeroProc with
    state := .ZOMBIE, pid := 7, trapframe := 5, kstack := 42, pagetable := 6,
    vma := 8, sig_act := 9, sig_frame := 13, name := 65 :: 66 :: List.replicate 14 0,
    chan := 3, killed := 1, xstate := 1, sz := 100, parent := 2, robust_list := 4 }

/-! ## Shared small lemmas -/

theorem getD_set_self {α : Type} {l : List α} {i : Nat} (h : i < l.length) (x d : α) :
    (l.set i x).getD i d = x := by
  simp [List.getD, List.getElem?_set_eq_of_lt, h]

theorem getD_set_ne {α : Type} {l : List α} {i j : Nat} (h : i ≠ j) (x d : α) :
    (l.set i x).getD j d = l.getD j d := by
  simp [List.getD, List.getElem?_set_ne, h]

theorem default_proc_state : (default : Proc).state = Procstate.UNUSED := rfl

/-- `allocpids` in closed form: call `i` returns `n + i` and the counter ends
    at `n + k`. -/
theorem allocpids_eq (k : Nat) : ∀ n : Nat,
    allocpids k n = ((List.range k).map (fun j => n + j), n + k) := by
  induction k with
  | zero => intro n; simp [allocpids]
  | succ k ih =>
    intro n
    simp only [allocpids, allocpid, ih (n + 1), List.range_succ_eq_map, List.map_cons,
      List.map_map, Prod.mk.injEq, List.cons.injEq]
    refine ⟨⟨by omega, ?_⟩, by omega⟩
    exact List.map_congr_left fun a _ => by simp only [Function.comp_apply]; omega

/-- `setName0` always produces an empty C string. -/
theorem cstrEmpty_setName0 (s : List Nat) : cstrEmpty (setName0 s) := by
  cases s <;> rfl

/-- The table scan finds exactly the first free slot. -/
theorem findUnused_eq_some (ps : List Proc) : ∀ k : Nat, k < ps.length →
    (ps.getD k default).state = Procstate.UNUSED →
    (∀ j, j < k → ¬ (ps.getD j default).state = Procstate.UNUSED) →
    findUnused ps = some k := by
  induction ps with
  | nil => intro k hk; simp at hk
  | cons p ps ih =>
    intro k hk hks hlt
    match k with
    | 0 =>
      rw [List.getD_cons_zero] at hks
      simp [findUnused, hks]
    | k + 1 =>
      have hp : ¬ p.state = Procstate.UNUSED := by
        have := hlt 0 (by omega)
        rwa [List.getD_cons_zero] at this
      rw [List.getD_cons_succ] at hks
      have := ih k (by simpa using Nat.lt_of_succ_lt_succ hk) hks
        (fun j hj => by have := hlt (j + 1) (by omega); rwa [List.getD_cons_succ] at this)
      simp [findUnused, hp, this]

/-- If no slot is free the scan fails. -/
theorem findUnused_eq_none (ps : List Proc) :
    (∀ j, j < ps.length → ¬ (ps.getD j default).state = Procstate.UNUSED) →
    findUnused ps = none := by
  induction ps with
  | nil => intro; rfl
  | cons p ps ih =>
    intro h
    have hp : ¬ p.state = Procstate.UNUSED := by
      have := h 0 (by simp)
      rwa [List.getD_cons_zero] at this
    have := ih (fun j hj => by
      have := h (j + 1) (by simpa using Nat.succ_lt_succ hj)
      rwa [List.getD_cons_succ] at this)
    simp [findUnused, hp, this]

/-- A successful scan result is in range and names a free slot. -/
theorem findUnused_bounds (ps : List Proc) : ∀ k : Nat, findUnused ps = some k →
    k < ps.length ∧ (ps.getD k default).state = Procstate.UNUSED := by
  induction ps with
  | nil => intro k h; cases h
  | cons p ps ih =>
    intro k h
    by_cases hp : p.state = Procstate.UNUSED
    · simp [findUnused, hp] at h
      subst h
      simpa using hp
    · simp only [findUnused, if_neg hp] at h
      cases hf : findUnused ps with
      | none => rw [hf] at h; cases h
      | some m =>
        rw [hf] at h
        simp only [Option.map_some'] at h
        cases h
        obtain ⟨h1, h2⟩ := ih m hf
        exact ⟨by simpa using Nat.succ_lt_succ h1, by rwa [List.getD_cons_succ]⟩

/-- The fully initialized descriptor a successful `allocproc` stores into the
    found slot: the composite of the writes of proc.c lines 145-199 applied
    to the slot's previous contents `p0`. -/
def allocatedProc (p0 : Proc) (pid tfp ks : Nat) (ptv : Nat × Nat) : Proc :=
  { p0 with
    pid := pid, killed := 0, filelimit := NOFILE,
    robust_list := 0, clear_child_tid := 0, set_child_tid := 0,
    vma := ptv.2, trapframe := tfp, kstack := ks, pagetable := ptv.1,
    ofile := some (List.replicate NOFILE 0),
    ctx_ra := forkretAddr, ctx_sp := ks + PGSIZE,
    tms_utime := 0, tms_stime := 0, tms_cutime := 1, tms_cstime := 1,
    sig_act := 0, sig_frame := 0,
    sig_pending := List.replicate SIGSET_LEN 0 }

/-- Computation of a fully successful `allocproc` call. -/
theorem allocproc_ok (o : AllocOracle) (st : PTState) (i tfp ofp : Nat) (ptv : Nat × Nat)
    (htf : o.tf = some tfp) (hpt : o.pt = some ptv) (hof : o.ofile = some ofp)
    (hfind : findUnused st.procs = some i) :
    allocproc o st = (AllocRes.ok i,
      ⟨st.procs.set i (allocatedProc (st.procs.getD i default) st.nextpid tfp (o.ks.getD 0) ptv),
       st.nextpid + 1⟩) := by
  simp only [allocproc, hfind, htf, hpt, hof, List.set_set, allocatedProc]

/-- `allocproc` with no free slot fails with the table untouched. -/
theorem allocproc_noSlot (o : AllocOracle) (st : PTState)
    (h : findUnused st.procs = none) : allocproc o st = (AllocRes.noSlot, st) := by
  simp only [allocproc, h]

/-- A successful `allocproc` result names the slot the scan found. -/
theorem allocproc_ok_inv (o : AllocOracle) (st : PTState) (i : Nat)
    (h : (allocproc o st).1 = AllocRes.ok i) : findUnused st.procs = some i := by
  cases hf : findUnused st.procs with
  | none => rw [allocproc_noSlot o st hf] at h; cases h
  | some j =>
    cases htf : o.tf with
    | none => simp [allocproc, hf, htf] at h
    | some tfp =>
      cases hpt : o.pt with
      | none => simp [allocproc, hf, htf, hpt] at h
      | some ptv =>
        cases hof : o.ofile with
        | none => simp [allocproc, hf, htf, hpt, hof] at h
        | some ofp =>
          rw [allocproc_ok o st j tfp ofp ptv htf hpt hof hf] at h
          cases h
          rfl

/-- Allocation rounds over a table whose first `m` slots are already taken
    (non-`UNUSED`) and whose remaining `r` slots are free: the next `r`
    rounds hand out exactly slots `m, m+1, …, m+r-1` and leave every slot
    taken. -/
theorem allocRounds_from_mixed (o : AllocOracle) (tfp ofp : Nat) (ptv : Nat × Nat)
    (htf : o.tf = some tfp) (hpt : o.pt = some ptv) (hof : o.ofile = some ofp) :
    ∀ r (st : PTState) (m : Nat), st.procs.length = m + r →
    (∀ j, j < m → ¬ (st.procs.getD j default).state = Procstate.UNUSED) →
    (∀ j, m ≤ j → j < m + r → (st.procs.getD j default).state = Procstate.UNUSED) →
    (allocRounds o r st).1 = (List.range' m r).map some
    ∧ (allocRounds o r st).2.procs.length = st.procs.length
    ∧ (∀ j, j < m + r → ¬ ((allocRounds o r st).2.procs.getD j default).state = Procstate.UNUSED) := by
  intro r
  induction r with
  | zero =>
    intro st m hlen hbusy _hfree
    exact ⟨rfl, rfl, fun j hj => hbusy j (by omega)⟩
  | succ r ih =>
    intro st m hlen hbusy hfree
    have hm : m < st.procs.length := by omega
    have hfind : findUnused st.procs = some m :=
      findUnused_eq_some st.procs m hm (hfree m (Nat.le_refl m) (by omega)) hbusy
    have hstep := allocproc_ok o st m tfp ofp ptv htf hpt hof hfind
    set p4 := allocatedProc (st.procs.getD m default) st.nextpid tfp (o.ks.getD 0) ptv with hp4
    have hround : allocRound o st =
        (some m, ⟨st.procs.set m { p4 with state := Procstate.RUNNABLE }, st.nextpid + 1⟩) := by
      simp only [allocRound, hstep, getD_set_self hm, List.set_set]
    set st' : PTState := ⟨st.procs.set m { p4 with state := Procstate.RUNNABLE }, st.nextpid + 1⟩
      with hst'
    have hlen' : st'.procs.length = (m + 1) + r := by
      simp only [hst', List.length_set]
      omega
    have hbusy' : ∀ j, j < m + 1 → ¬ (st'.procs.getD j default).state = Procstate.UNUSED := by
      intro j hj
      rcases Nat.lt_or_ge j m with hlt | hge
      · rw [hst']
        rw [getD_set_ne (by omega)]
        exact hbusy j hlt
      · have hjm : j = m := by omega
        subst hjm
        rw [hst', getD_set_self hm]
        simp
    have hfree' : ∀ j, m + 1 ≤ j → j < (m + 1) + r → (st'.procs.getD j default).state = Procstate.UNUSED := by
      intro j h1 h2
      rw [hst', getD_set_ne (by omega)]
      exact hfree j (by omega) (by omega)
    obtain ⟨ih1, ih2, ih3⟩ := ih st' (m + 1) hlen' hbusy' hfree'
    refine ⟨?_, ?_, ?_⟩
    · show (allocRound o st).1 :: (allocRounds o r (allocRound o st).2).1 = _
      rw [hround]
      show some m :: (allocRounds o r st').1 = _
      rw [ih1]
      rfl
    · show (allocRounds o r (allocRound o st).2).2.procs.length = _
      rw [hround]
      show (allocRounds o r st').2.procs.length = _
      rw [ih2, hlen', hlen]
      omega
    · intro j hj
      show ¬ ((allocRounds o r (allocRound o st).2).2.procs.getD j default).state = Procstate.UNUSED
      rw [hround]
      exact ih3 j (by omega)

/-! ## Generic keyed-list lemmas -/

theorem find?_key_self {α β : Type} [DecidableEq β] (key : α → β) :
    ∀ l : List α, (l.map key).Nodup → ∀ x, x ∈ l →
      l.find? (fun y => key y = key x) = some x := by
  intro l
  induction l with
  | nil => intro _ x hx; cases hx
  | cons h t ih =>
    intro hnd x hx
    rcases List.mem_cons.mp hx with rfl | hxt
    · simp [List.find?]
    · have hne : ¬ key h = key x := by
        intro he
        have : key x ∈ t.map key := List.mem_map_of_mem key hxt
        rw [← he] at this
        exact (List.nodup_cons.mp hnd).1 this
      have hd : (decide (key h = key x)) = false := decide_eq_false hne
      simp only [List.find?, hd]
      exact ih (List.nodup_cons.mp hnd).2 x hxt

theorem find?_map_of_key {α β : Type} [DecidableEq β] (key : α → β) (g : α → α)
    (hg : ∀ x, key (g x) = key x) (c : β) :
    ∀ l : List α, (l.map g).find? (fun y => key y = c) = (l.find? (fun y => key y = c)).map g := by
  intro l
  induction l with
  | nil => rfl
  | cons h t ih =>
    simp only [List.map_cons, List.find?, hg h]
    by_cases hc : key h = c
    · simp [hc]
    · simp only [hc, decide_False]
      exact ih

theorem map_key_map_of_key {α β : Type} (key : α → β) (g : α → α)
    (hg : ∀ x, key (g x) = key x) (l : List α) :
    (l.map g).map key = l.map key := by
  rw [List.map_map]
  exact List.map_congr_left (fun x _ => hg x)

theorem length_filter_congr {α : Type} (p q : α → Bool) :
    ∀ l : List α, (∀ x, x ∈ l → p x = q x) → (l.filter p).length = (l.filter q).length := by
  intro l
  induction l with
  | nil => intro _; rfl
  | cons h t ih =>
    intro hpq
    simp only [List.filter]
    rw [hpq h (List.mem_cons_self h t)]
    cases q h <;> simp [ih (fun x hx => hpq x (List.mem_cons_of_mem h hx))]

theorem length_filter_map_congr {α : Type} (g : α → α) (p : α → Bool)
    (l : List α) (hp : ∀ x, x ∈ l → p (g x) = p x) :
    ((l.map g).filter p).length = (l.filter p).length := by
  induction l with
  | nil => rfl
  | cons h t ih =>
    simp only [List.map_cons, List.filter]
    rw [hp h (List.mem_cons_self h t)]
    cases p h <;> simp [ih (fun x hx => hp x (List.mem_cons_of_mem h hx))]

theorem filter_key_ne_of_not_mem {α β : Type} [DecidableEq β] (key : α → β) (b : β) :
    ∀ l : List α, ¬ b ∈ l.map key → l.filter (fun m => ¬ key m = b) = l := by
  intro l hb
  apply List.filter_eq_self.mpr
  intro m hm
  simp only [decide_eq_true_eq]
  intro he
  exact hb (he ▸ List.mem_map_of_mem key hm)

/-- Dropping the unique element with key `b` from a keyed duplicate-free list
    removes exactly its contribution to any filtered count. -/
theorem length_filter_drop_key {α β : Type} [DecidableEq β] (key : α → β) (p : α → Bool) :
    ∀ l : List α, (l.map key).Nodup → ∀ n, n ∈ l →
      ((l.filter (fun m => ¬ key m = key n)).filter p).length + (if p n then 1 else 0)
        = (l.filter p).length := by
  intro l
  induction l with
  | nil => intro _ n hn; cases hn
  | cons h t ih =>
    intro hnd n hn
    obtain ⟨hh, hnd'⟩ := List.nodup_cons.mp hnd
    rcases List.mem_cons.mp hn with rfl | hnt
    · have ht : t.filter (fun m => ¬ key m = key n) = t :=
        filter_key_ne_of_not_mem key (key n) t hh
      simp only [List.filter_cons]
      rw [if_neg (by simp), ht]
      cases hpn : p n <;> simp [List.filter_cons, hpn]
    · have hne : ¬ key h = key n := by
        intro he
        exact hh (he ▸ List.mem_map_of_mem key hnt)
      have hi := ih hnd' n hnt
      simp only [List.filter_cons]
      rw [if_pos (by simpa using hne)]
      rw [List.filter_cons]
      cases hph : p h <;> cases hpn : p n <;> simp_all

/-! ## Arithmetic facts about the slab geometry -/

theorem ROUNDUP16_mod (n : Nat) : ROUNDUP16 n % 16 = 0 := by
  simp [ROUNDUP16, Nat.mul_mod_left]

theorem le_ROUNDUP16 (n : Nat) : n ≤ ROUNDUP16 n := by
  simp only [ROUNDUP16]
  omega

theorem ROUNDUP16_le (n : Nat) : ROUNDUP16 n ≤ n + 15 := by
  simp only [ROUNDUP16]
  omega

theorem ROUNDUP16_mono {a b : Nat} (h : a ≤ b) : ROUNDUP16 a ≤ ROUNDUP16 b := by
  simp only [ROUNDUP16]
  omega

theorem ROUNDUP16_idem_of_mod {a : Nat} (h : a % 16 = 0) : ROUNDUP16 a = a := by
  simp only [ROUNDUP16]
  omega

theorem calc_capa_as_div (r : Nat) : calc_capa r = 4064 / (r + 1) := by
  norm_num [calc_capa, PGSIZE, ROUNDUP16, KMEM_NODE_FIX]

theorem calc_capa_le123 {r : Nat} (h : 32 ≤ r) : calc_capa r ≤ 123 := by
  rw [calc_capa_as_div]
  calc 4064 / (r + 1) ≤ 4064 / 33 := Nat.div_le_div_left (by omega) (by norm_num)
    _ = 123 := by norm_num

theorem calc_capa_pos {r : Nat} (h : r ≤ 4048) : 0 < calc_capa r := by
  rw [calc_capa_as_div]
  exact Nat.div_pos (by omega) (by omega)

theorem calc_capa_mod {r : Nat} (h : 32 ≤ r) : calc_capa r % 256 = calc_capa r :=
  Nat.mod_eq_of_lt (by have := calc_capa_le123 h; omega)

set_option maxRecDepth 8192 in
set_option maxHeartbeats 1000000 in
/-- The object region of a slab node fits inside the node's page, checked
    for each of the 252 possible 16-aligned size classes. -/
theorem region_fit_aux : ∀ k : Nat, k < 252 →
    ROUNDUP16 (KMEM_NODE_FIX + calc_capa (32 + 16 * k))
      + calc_capa (32 + 16 * k) * (32 + 16 * k) ≤ PGSIZE := by
  decide

theorem region_fit {r : Nat} (h1 : 32 ≤ r) (h2 : r ≤ 4048) (h3 : r % 16 = 0) :
    ROUNDUP16 (KMEM_NODE_FIX + calc_capa r) + calc_capa r * r ≤ PGSIZE := by
  obtain ⟨k, hk, rfl⟩ : ∃ k, k < 252 ∧ r = 32 + 16 * k := ⟨(r - 32) / 16, by omega, by omega⟩
  exact region_fit_aux k hk

/-! ## Free-list chain lemmas -/

theorem Chain.elem_lt {t : List Nat} {a : Nat} {l : List Nat} (h : Chain t a l) :
    ∀ i, i ∈ l → i < t.length := by
  induction h with
  | nil => intro i hi; cases hi
  | cons j rest hj hrec ih =>
    intro i hi
    rcases List.mem_cons.mp hi with rfl | hmem
    · exact hj
    · exact ih i hmem

theorem chain_end_nil {t : List Nat} {l : List Nat} (ht : t.length ≤ TABLE_END)
    (h : Chain t TABLE_END l) : l = [] := by
  cases h with
  | nil => rfl
  | cons _ rest hi _ => omega

theorem chain_deterministic {t : List Nat} (ht : t.length ≤ TABLE_END) :
    ∀ {a : Nat} {l1 l2 : List Nat}, Chain t a l1 → Chain t a l2 → l1 = l2 := by
  intro a l1 l2 h1
  induction h1 generalizing l2 with
  | nil => intro h2; exact (chain_end_nil ht h2).symm
  | cons i rest hi hrec ih =>
    intro h2
    cases h2 with
    | nil => omega
    | cons _ rest2 hi2 hrec2 => rw [ih hrec2]

theorem chain_of_ne_end {t : List Nat} {a : Nat} {l : List Nat}
    (h : Chain t a l) (ha : ¬ a = TABLE_END) :
    ∃ rest, l = a :: rest ∧ a < t.length ∧ Chain t (t.getD a 0) rest := by
  cases h with
  | nil => exact absurd rfl ha
  | cons _ rest hi hrec => exact ⟨rest, rfl, hi, hrec⟩

theorem chain_set_not_mem {t : List Nat} {a : Nat} {l : List Nat}
    (h : Chain t a l) (j v : Nat) (hj : ¬ j ∈ l) : Chain (t.set j v) a l := by
  induction h with
  | nil => exact Chain.nil
  | cons i rest hi hrec ih =>
    have hji : ¬ j = i := fun he => hj (he ▸ List.mem_cons_self i rest)
    refine Chain.cons i rest (by simpa using hi) ?_
    rw [getD_set_ne hji]
    exact ih (fun hm => hj (List.mem_cons_of_mem i hm))

theorem freshTable_length (capa : Nat) : (freshTable capa).length = capa := by
  simp [freshTable]

theorem freshTable_getD {capa j : Nat} (hj : j < capa) :
    (freshTable capa).getD j 0 = if j + 1 = capa then TABLE_END else j + 1 := by
  simp [freshTable, List.getD, List.getElem?_map, List.getElem?_range hj]

theorem chain_fresh_aux (capa : Nat) :
    ∀ d j, j + (d + 1) = capa → Chain (freshTable capa) j (List.range' j (d + 1)) := by
  intro d
  induction d with
  | zero =>
    intro j hj
    refine Chain.cons j [] (by rw [freshTable_length]; omega) ?_
    rw [freshTable_getD (by omega), if_pos (by omega)]
    exact Chain.nil
  | succ d ih =>
    intro j hj
    refine Chain.cons j (List.range' (j + 1) (d + 1)) (by rw [freshTable_length]; omega) ?_
    rw [freshTable_getD (by omega), if_neg (by omega)]
    exact ih (j + 1) (by omega)

/-- The fresh table's free list is the single chain `0 → 1 → … → capa-1`. -/
theorem chain_fresh {capa : Nat} (hpos : 0 < capa) :
    Chain (freshTable capa) 0 (List.range capa) := by
  rw [List.range_eq_range']
  obtain ⟨d, rfl⟩ : ∃ d, capa = d + 1 := ⟨capa - 1, by omega⟩
  exact chain_fresh_aux (d + 1) d 0 (by omega)

/-- With the node's free list in hand, liveness of an index is just absence
    from that list. -/
theorem liveIdx_iff {n : KNode} {fl : List Nat} (ht : n.table.length ≤ TABLE_END)
    (hch : Chain n.table n.avail fl) (i : Nat) :
    LiveIdx n i ↔ i < n.table.length ∧ ¬ i ∈ fl := by
  constructor
  · intro ⟨h1, h2⟩
    exact ⟨h1, h2 fl hch⟩
  · intro ⟨h1, h2⟩
    refine ⟨h1, fun l hl => ?_⟩
    rw [chain_deterministic ht hl hch]
    exact h2

/-! ## Slab node geometry -/

theorem NodeWF.size_pos {n : KNode} (hn : NodeWF n) : 0 < n.objSize := by
  have := hn.size_min
  simp only [KMEM_OBJ_MIN_SIZE] at this
  omega

theorem NodeWF.capa_le {n : KNode} (hn : NodeWF n) : n.table.length ≤ 123 := by
  rw [hn.capa_eq]
  exact calc_capa_le123 (by simpa [KMEM_OBJ_MIN_SIZE] using hn.size_min)

theorem NodeWF.capa_le_end {n : KNode} (hn : NodeWF n) : n.table.length ≤ TABLE_END := by
  have := hn.capa_le
  simp only [TABLE_END]
  omega

/-- Object `i` of a well-formed node lies inside the node's page, with room
    for the whole object. -/
theorem NodeWF.region_sub {n : KNode} (hn : NodeWF n) {i : Nat} (hi : i < n.table.length) :
    n.base ≤ n.objAddr + i * n.objSize
    ∧ n.objAddr + i * n.objSize + n.objSize ≤ n.base + PGSIZE := by
  have hfit := region_fit (by simpa [KMEM_OBJ_MIN_SIZE] using hn.size_min)
    (by simpa [KMEM_OBJ_MAX_SIZE] using hn.size_max) hn.size_align
  rw [← hn.capa_eq] at hfit
  constructor
  · rw [hn.addr_eq]; omega
  · have h1 : i * n.objSize + n.objSize ≤ n.table.length * n.objSize := by
      have : i + 1 ≤ n.table.length := hi
      calc i * n.objSize + n.objSize = (i + 1) * n.objSize := by ring
        _ ≤ n.table.length * n.objSize := Nat.mul_le_mul_right _ this
    rw [hn.addr_eq]
    omega

/-- The whole object region of a well-formed node stops at the page end. -/
theorem NodeWF.region_end (n : KNode) (hn : NodeWF n) :
    n.objAddr + n.table.length * n.objSize ≤ n.base + PGSIZE := by
  have hfit := region_fit (by simpa [KMEM_OBJ_MIN_SIZE] using hn.size_min)
    (by simpa [KMEM_OBJ_MAX_SIZE] using hn.size_max) hn.size_align
  rw [← hn.capa_eq] at hfit
  rw [hn.addr_eq]
  omega

/-- Rounding an object address down to page granularity recovers the node's
    page — how `kfree` finds the containing node. -/
theorem NodeWF.pgrounddown {n : KNode} (hn : NodeWF n) {i : Nat} (hi : i < n.table.length) :
    PGROUNDDOWN (n.objAddr + i * n.objSize) = n.base := by
  obtain ⟨hlo, hhi⟩ := hn.region_sub hi
  have hs := hn.size_pos
  obtain ⟨q, hq⟩ : ∃ q, n.base = PGSIZE * q := ⟨n.base / PGSIZE, by
    have := Nat.div_add_mod n.base PGSIZE
    rw [hn.base_align] at this
    omega⟩
  simp only [PGROUNDDOWN, PGSIZE] at *
  omega

theorem NodeWF.addr_align {n : KNode} (hn : NodeWF n) (i : Nat) :
    (n.objAddr + i * n.objSize) % 16 = 0 := by
  obtain ⟨qb, hqb⟩ : ∃ q, n.base = 16 * q := ⟨n.base / 16, by
    have h4 : n.base % 4096 = 0 := hn.base_align
    omega⟩
  obtain ⟨qr, hqr⟩ : ∃ q, ROUNDUP16 (KMEM_NODE_FIX + n.table.length) = 16 * q :=
    ⟨ROUNDUP16 (KMEM_NODE_FIX + n.table.length) / 16,
     by have := ROUNDUP16_mod (KMEM_NODE_FIX + n.table.length); omega⟩
  obtain ⟨qs, hqs⟩ : ∃ q, n.objSize = 16 * q := ⟨n.objSize / 16, by have := hn.size_align; omega⟩
  rw [hn.addr_eq, hqb, hqr, hqs]
  have : 16 * qb + 16 * qr + i * (16 * qs) = 16 * (qb + qr + i * qs) := by ring
  rw [this]
  exact Nat.mul_mod_right 16 _

/-- Distinct indices of one node give distinct object addresses. -/
theorem NodeWF.addr_inj {n : KNode} (hn : NodeWF n) {i j : Nat}
    (h : n.objAddr + i * n.objSize = n.objAddr + j * n.objSize) : i = j := by
  have hs := hn.size_pos
  have := Nat.add_left_cancel h
  exact Nat.eq_of_mul_eq_mul_right hs this

/-- Two well-formed nodes on distinct pages have disjoint object regions. -/
theorem region_disjoint {n m : KNode} (hn : NodeWF n) (hm : NodeWF m)
    (hne : ¬ n.base = m.base) {a : Nat} (han : inRegion n a) (ham : inRegion m a) : False := by
  obtain ⟨i, hi, rfl⟩ := han
  obtain ⟨j, hj, he⟩ := ham
  exact hne (by rw [← hn.pgrounddown hi, he, hm.pgrounddown hj])

/-- The index computation of `kfree` (line 224) recovers the object's index,
    `uint8` truncation included. -/
theorem NodeWF.index_recover {n : KNode} (hn : NodeWF n) {i : Nat} (hi : i < n.table.length) :
    ((n.objAddr + i * n.objSize - n.objAddr) / n.objSize) % 256 = i := by
  have hs := hn.size_pos
  have hcap := hn.capa_le
  rw [Nat.add_sub_cancel_left, Nat.mul_div_cancel _ hs]
  exact Nat.mod_eq_of_lt (by omega)

/-! ## State-update utilities -/

theorem allocFind_mem {st : KState} {r : Nat} {A : KAlloc} (h : allocFind st r = some A) :
    A ∈ st.allocs ∧ A.obj_size = r := by
  refine ⟨List.mem_of_find?_eq_some h, ?_⟩
  have := List.find?_some h
  simpa using this

theorem allocFind_self {st : KState} (hnd : (st.allocs.map KAlloc.obj_size).Nodup)
    {A : KAlloc} (hA : A ∈ st.allocs) : allocFind st A.obj_size = some A :=
  find?_key_self KAlloc.obj_size st.allocs hnd A hA

theorem alloc_unique {st : KState} (hnd : (st.allocs.map KAlloc.obj_size).Nodup)
    {A B : KAlloc} (hA : A ∈ st.allocs) (hB : B ∈ st.allocs)
    (he : A.obj_size = B.obj_size) : A = B := by
  have h1 := allocFind_self hnd hA
  have h2 := allocFind_self hnd hB
  rw [he] at h1
  rw [h1] at h2
  exact (Option.some.injEq ..▸ h2 :)

theorem allocFind_none {st : KState} {r : Nat} (h : allocFind st r = none) :
    ∀ A, A ∈ st.allocs → ¬ A.obj_size = r := by
  intro A hA
  have := List.find?_eq_none.mp h A hA
  simpa using this

theorem nodeFind_mem {st : KState} {b : Nat} {n : KNode} (h : nodeFind st b = some n) :
    n ∈ st.nodes ∧ n.base = b := by
  refine ⟨List.mem_of_find?_eq_some h, ?_⟩
  have := List.find?_some h
  simpa using this

theorem nodeFind_self {st : KState} (hnd : (st.nodes.map KNode.base).Nodup)
    {n : KNode} (hn : n ∈ st.nodes) : nodeFind st n.base = some n :=
  find?_key_self KNode.base st.nodes hnd n hn

theorem node_unique {st : KState} (hnd : (st.nodes.map KNode.base).Nodup)
    {n m : KNode} (hn : n ∈ st.nodes) (hm : m ∈ st.nodes)
    (he : n.base = m.base) : n = m := by
  have h1 := nodeFind_self hnd hn
  have h2 := nodeFind_self hnd hm
  rw [he] at h1
  rw [h1] at h2
  exact (Option.some.injEq ..▸ h2 :)

theorem allocUpd_allocs (st : KState) (r : Nat) (f : KAlloc → KAlloc) :
    (allocUpd st r f).allocs = st.allocs.map (fun A => if A.obj_size = r then f A else A) := rfl

theorem allocUpd_sizes (st : KState) (r : Nat) (f : KAlloc → KAlloc)
    (hf : ∀ A, (f A).obj_size = A.obj_size) :
    (allocUpd st r f).allocs.map KAlloc.obj_size = st.allocs.map KAlloc.obj_size := by
  rw [allocUpd_allocs]
  exact map_key_map_of_key KAlloc.obj_size _ (fun A => by by_cases h : A.obj_size = r <;> simp [h, hf]) _

theorem allocFind_allocUpd (st : KState) (r c : Nat) (f : KAlloc → KAlloc)
    (hf : ∀ A, (f A).obj_size = A.obj_size) :
    allocFind (allocUpd st r f) c
      = (allocFind st c).map (fun A => if A.obj_size = r then f A else A) :=
  find?_map_of_key KAlloc.obj_size _ (fun A => by by_cases h : A.obj_size = r <;> simp [h, hf]) c _

theorem mem_allocUpd {st : KState} {r : Nat} {f : KAlloc → KAlloc} {A : KAlloc}
    (hA : A ∈ st.allocs) :
    (if A.obj_size = r then f A else A) ∈ (allocUpd st r f).allocs :=
  List.mem_map_of_mem _ hA

theorem mem_allocUpd_inv {st : KState} {r : Nat} {f : KAlloc → KAlloc} {B : KAlloc}
    (hB : B ∈ (allocUpd st r f).allocs) :
    ∃ A, A ∈ st.allocs ∧ B = if A.obj_size = r then f A else A := by
  obtain ⟨A, hA, he⟩ := List.mem_map.mp hB
  exact ⟨A, hA, he.symm⟩

theorem nodeUpd_nodes (st : KState) (b : Nat) (n' : KNode) :
    (nodeUpd st b n').nodes = st.nodes.map (fun m => if m.base = b then n' else m) := rfl

theorem nodeUpd_bases (st : KState) (b : Nat) (n' : KNode) (hb : n'.base = b) :
    (nodeUpd st b n').nodes.map KNode.base = st.nodes.map KNode.base := by
  rw [nodeUpd_nodes]
  exact map_key_map_of_key KNode.base _
    (fun m => by by_cases h : m.base = b <;> simp [h, hb]) _

theorem nodeFind_nodeUpd (st : KState) (b c : Nat) (n' : KNode) (hb : n'.base = b) :
    nodeFind (nodeUpd st b n') c
      = (nodeFind st c).map (fun m => if m.base = b then n' else m) :=
  find?_map_of_key KNode.base _ (fun m => by by_cases h : m.base = b <;> simp [h, hb]) c _

theorem mem_nodeUpd {st : KState} {b : Nat} {n' : KNode} {m : KNode} (hm : m ∈ st.nodes) :
    (if m.base = b then n' else m) ∈ (nodeUpd st b n').nodes :=
  List.mem_map_of_mem _ hm

theorem mem_nodeUpd_inv {st : KState} {b : Nat} {n' : KNode} {m : KNode}
    (hm : m ∈ (nodeUpd st b n').nodes) :
    m = n' ∨ (m ∈ st.nodes ∧ ¬ m.base = b) := by
  obtain ⟨x, hx, he⟩ := List.mem_map.mp hm
  by_cases hxb : x.base = b
  · left; rw [← he, if_pos hxb]
  · right
    rw [← he, if_neg hxb]
    exact ⟨hx, hxb⟩

theorem mem_nodeRemove_iff {st : KState} {b : Nat} {m : KNode} :
    m ∈ (nodeRemove st b).nodes ↔ m ∈ st.nodes ∧ ¬ m.base = b := by
  simp [nodeRemove, List.mem_filter]

theorem classPages_nodeUpd (st : KState) (b c : Nat) (n' : KNode)
    (hsz : ∀ m, m ∈ st.nodes → m.base = b → n'.objSize = m.objSize) :
    classPages (nodeUpd st b n') c = classPages st c := by
  simp only [classPages, nodeUpd_nodes]
  exact length_filter_map_congr _ _ _ (fun m hm => by
    by_cases h : m.base = b
    · simp [h, hsz m hm h]
    · simp [h])

theorem classPages_cons (st : KState) (x : KNode) (c : Nat) :
    classPages { st with nodes := x :: st.nodes } c
      = (if x.objSize = c then 1 else 0) + classPages st c := by
  simp only [classPages, List.filter_cons]
  by_cases h : x.objSize = c <;> simp [h]
  omega

theorem classPages_nodeRemove_self {st : KState} (hnd : (st.nodes.map KNode.base).Nodup)
    {n : KNode} (hn : n ∈ st.nodes) :
    classPages (nodeRemove st n.base) n.objSize + 1 = classPages st n.objSize := by
  have := length_filter_drop_key KNode.base (fun m => m.objSize = n.objSize)
    st.nodes hnd n hn
  simpa [nodeRemove, classPages] using this

theorem classPages_nodeRemove_other {st : KState} (hnd : (st.nodes.map KNode.base).Nodup)
    {n : KNode} (hn : n ∈ st.nodes) {c : Nat} (hc : ¬ n.objSize = c) :
    classPages (nodeRemove st n.base) c = classPages st c := by
  have := length_filter_drop_key KNode.base (fun m => m.objSize = c) st.nodes hnd n hn
  simpa [nodeRemove, classPages, hc] using this

theorem nodes_length_nodeRemove {st : KState} (hnd : (st.nodes.map KNode.base).Nodup)
    {n : KNode} (hn : n ∈ st.nodes) :
    (nodeRemove st n.base).nodes.length + 1 = st.nodes.length := by
  have := length_filter_drop_key KNode.base (fun _ => true) st.nodes hnd n hn
  simpa [nodeRemove] using this

/-! ## Liveness under state updates -/

theorem isLive_def (st : KState) (x : Nat) :
    isLive st x ↔ ∃ n, n ∈ st.nodes ∧ ∃ i, LiveIdx n i ∧ x = n.objAddr + i * n.objSize :=
  Iff.rfl

theorem isLiveOf_isLive {st : KState} {c x : Nat} (h : isLiveOf st c x) : isLive st x := by
  obtain ⟨n, hn, _, hi⟩ := h
  exact ⟨n, hn, hi⟩

theorem isLive_nodeUpd {st : KState} {b : Nat} {n : KNode} (hn : n ∈ st.nodes)
    (hb : n.base = b) (n' : KNode) (x : Nat) :
    isLive (nodeUpd st b n') x ↔
      ((∃ i, LiveIdx n' i ∧ x = n'.objAddr + i * n'.objSize)
        ∨ ∃ m, m ∈ st.nodes ∧ ¬ m.base = b ∧ ∃ i, LiveIdx m i ∧ x = m.objAddr + i * m.objSize) := by
  constructor
  · intro ⟨m', hm', hlive⟩
    rcases mem_nodeUpd_inv hm' with rfl | ⟨hmem, hb'⟩
    · exact Or.inl hlive
    · exact Or.inr ⟨m', hmem, hb', hlive⟩
  · intro h
    rcases h with ⟨i, hi⟩ | ⟨m, hmem, hb', hlive⟩
    · refine ⟨n', ?_, i, hi⟩
      have := @mem_nodeUpd st b n' n hn
      rwa [if_pos hb] at this
    · refine ⟨m, ?_, hlive⟩
      have := @mem_nodeUpd st b n' m hmem
      rwa [if_neg hb'] at this

theorem isLiveOf_nodeUpd {st : KState} {b : Nat} {n : KNode} (hn : n ∈ st.nodes)
    (hb : n.base = b) (n' : KNode) (c x : Nat) :
    isLiveOf (nodeUpd st b n') c x ↔
      ((n'.objSize = c ∧ ∃ i, LiveIdx n' i ∧ x = n'.objAddr + i * n'.objSize)
        ∨ ∃ m, m ∈ st.nodes ∧ ¬ m.base = b ∧ m.objSize = c
            ∧ ∃ i, LiveIdx m i ∧ x = m.objAddr + i * m.objSize) := by
  constructor
  · intro ⟨m', hm', hsz, hlive⟩
    rcases mem_nodeUpd_inv hm' with rfl | ⟨hmem, hb'⟩
    · exact Or.inl ⟨hsz, hlive⟩
    · exact Or.inr ⟨m', hmem, hb', hsz, hlive⟩
  · intro h
    rcases h with ⟨hsz, i, hi⟩ | ⟨m, hmem, hb', hsz, hlive⟩
    · refine ⟨n', ?_, hsz, i, hi⟩
      have := @mem_nodeUpd st b n' n hn
      rwa [if_pos hb] at this
    · refine ⟨m, ?_, hsz, hlive⟩
      have := @mem_nodeUpd st b n' m hmem
      rwa [if_neg hb'] at this

theorem isLive_cons {st : KState} (node : KNode) (x : Nat) :
    isLive { st with nodes := node :: st.nodes } x ↔
      ((∃ i, LiveIdx node i ∧ x = node.objAddr + i * node.objSize) ∨ isLive st x) := by
  constructor
  · intro ⟨m, hm, hlive⟩
    rcases List.mem_cons.mp hm with rfl | hmem
    · exact Or.inl hlive
    · exact Or.inr ⟨m, hmem, hlive⟩
  · intro h
    rcases h with ⟨i, hi⟩ | ⟨m, hmem, hlive⟩
    · exact ⟨node, List.mem_cons_self .., i, hi⟩
    · exact ⟨m, List.mem_cons_of_mem _ hmem, hlive⟩

theorem isLiveOf_cons {st : KState} (node : KNode) (c x : Nat) :
    isLiveOf { st with nodes := node :: st.nodes } c x ↔
      ((node.objSize = c ∧ ∃ i, LiveIdx node i ∧ x = node.objAddr + i * node.objSize)
        ∨ isLiveOf st c x) := by
  constructor
  · intro ⟨m, hm, hsz, hlive⟩
    rcases List.mem_cons.mp hm with rfl | hmem
    · exact Or.inl ⟨hsz, hlive⟩
    · exact Or.inr ⟨m, hmem, hsz, hlive⟩
  · intro h
    rcases h with ⟨hsz, i, hi⟩ | ⟨m, hmem, hsz, hlive⟩
    · exact ⟨node, List.mem_cons_self .., hsz, i, hi⟩
    · exact ⟨m, List.mem_cons_of_mem _ hmem, hsz, hlive⟩

theorem isLive_nodeRemove {st : KState} (b : Nat) (x : Nat) :
    isLive (nodeRemove st b) x ↔
      ∃ m, m ∈ st.nodes ∧ ¬ m.base = b ∧ ∃ i, LiveIdx m i ∧ x = m.objAddr + i * m.objSize := by
  constructor
  · intro ⟨m, hm, hlive⟩
    obtain ⟨hmem, hb⟩ := mem_nodeRemove_iff.mp hm
    exact ⟨m, hmem, hb, hlive⟩
  · intro ⟨m, hmem, hb, hlive⟩
    exact ⟨m, mem_nodeRemove_iff.mpr ⟨hmem, hb⟩, hlive⟩

theorem isLiveOf_nodeRemove {st : KState} (b : Nat) (c x : Nat) :
    isLiveOf (nodeRemove st b) c x ↔
      ∃ m, m ∈ st.nodes ∧ ¬ m.base = b ∧ m.objSize = c
        ∧ ∃ i, LiveIdx m i ∧ x = m.objAddr + i * m.objSize := by
  constructor
  · intro ⟨m, hm, hsz, hlive⟩
    obtain ⟨hmem, hb⟩ := mem_nodeRemove_iff.mp hm
    exact ⟨m, hmem, hb, hsz, hlive⟩
  · intro ⟨m, hmem, hb, hsz, hlive⟩
    exact ⟨m, mem_nodeRemove_iff.mpr ⟨hmem, hb⟩, hsz, hlive⟩

/-- An address in the object region of a node `n` is not live on any other
    node (regions of distinct nodes are disjoint). -/
theorem not_live_other {st : KState} (hwf : ∀ m, m ∈ st.nodes → NodeWF m)
    (hndb : (st.nodes.map KNode.base).Nodup) {n : KNode} (hn : n ∈ st.nodes)
    {x : Nat} (hx : inRegion n x) {m : KNode} (hm : m ∈ st.nodes) (hne : ¬ m = n)
    {i : Nat} (hi : LiveIdx m i) : ¬ x = m.objAddr + i * m.objSize := by
  intro he
  have hbne : ¬ n.base = m.base := fun hb => hne (node_unique hndb hm hn hb.symm)
  exact region_disjoint (hwf n hn) (hwf m hm) hbne hx ⟨i, hi.1, he⟩

/-! ## The allocation step -/

theorem allocUpd_congr {st : KState} {r : Nat} {f f' : KAlloc → KAlloc}
    (h : ∀ A, A ∈ st.allocs → A.obj_size = r → f A = f' A) :
    allocUpd st r f = allocUpd st r f' := by
  simp only [allocUpd]
  congr 1
  apply List.map_congr_left
  intro A hA
  by_cases hr : A.obj_size = r
  · simp [hr, h A hA hr]
  · simp [hr]

theorem allocUpd_allocUpd (st : KState) (r : Nat) (f g : KAlloc → KAlloc)
    (hf : ∀ A, (f A).obj_size = A.obj_size) :
    allocUpd (allocUpd st r f) r g = allocUpd st r (fun A => g (f A)) := by
  simp only [allocUpd, List.map_map]
  congr 1
  apply List.map_congr_left
  intro A _
  by_cases hr : A.obj_size = r
  · simp [Function.comp, hr, hf]
  · simp [Function.comp, hr]

theorem nodeRemove_nodeUpd (st : KState) (b : Nat) (n' : KNode) (hb : n'.base = b) :
    nodeRemove (nodeUpd st b n') b = nodeRemove st b := by
  simp only [nodeRemove, nodeUpd]
  congr 1
  rw [List.filter_map]
  have h1 : st.nodes.filter
        ((fun n => decide ¬ n.base = b) ∘ fun n => if n.base = b then n' else n)
      = st.nodes.filter (fun n => decide ¬ n.base = b) := by
    apply List.filter_congr
    intro m _
    by_cases h : m.base = b <;> simp [Function.comp, h, hb]
  rw [h1]
  have h2 : ∀ m ∈ st.nodes.filter (fun n => decide ¬ n.base = b),
      (if m.base = b then n' else m) = m := by
    intro m hm
    have hmb := (List.mem_filter.mp hm).2
    simp only [decide_eq_true_eq] at hmb
    rw [if_neg hmb]
  calc (st.nodes.filter (fun n => decide ¬ n.base = b)).map
        (fun n => if n.base = b then n' else n)
      = (st.nodes.filter (fun n => decide ¬ n.base = b)).map (fun m => m) :=
        List.map_congr_left h2
    _ = _ := List.map_id ..

/-- Replacing one node of class `r` by a rebuilt node with the same base,
    size and geometry, while rewriting the class's "has space" list to a new
    list `L'` consistent with the new node's fullness and updating the
    class's object count arbitrarily, preserves the basic invariant.  This
    is the common shape of the state change of both `kmalloc` (serving an
    object from the front node) and `kfree` (pushing an object back). -/
theorem replaceNode_inv {st : KState} {r : Nat} {A : KAlloc} {b : Nat}
    (hB : KInvB st) (hA : allocFind st r = some A)
    {n : KNode} (hnmem : n ∈ st.nodes) (hnb : n.base = b) (hnsz : n.objSize = A.obj_size)
    {n' : KNode} (hn'b : n'.base = b) (hn'sz : n'.objSize = n.objSize)
    (hwf' : NodeWF n') (nb : KAlloc → Nat) {L' : List Nat}
    (hbL : b ∈ L' ↔ ¬ n'.avail = TABLE_END)
    (hoL : ∀ x, ¬ x = b → (x ∈ L' ↔ x ∈ A.list)) (hndL : L'.Nodup) :
    KInvB (allocUpd (nodeUpd st b n') r (fun B => { B with nobjs := nb B, list := L' })) := by
  obtain ⟨hAmem, hAsz⟩ := allocFind_mem hA
  have hbase_only : ∀ m, m ∈ st.nodes → m.base = b → m = n := fun m hm hmb =>
    node_unique hB.bases_nodup hm hnmem (hmb.trans hnb.symm)
  have halloc_only : ∀ B, B ∈ st.allocs → B.obj_size = r → B = A := fun B hBm hBr =>
    alloc_unique hB.sizes_nodup hBm hAmem (hBr.trans hAsz.symm)
  set stU := allocUpd (nodeUpd st b n') r (fun B => { B with nobjs := nb B, list := L' })
    with hstU
  have hnodesU : stU.nodes = (nodeUpd st b n').nodes := rfl
  have hmemU : ∀ m, m ∈ stU.nodes → m = n' ∨ (m ∈ st.nodes ∧ ¬ m.base = b) := by
    intro m hm
    exact mem_nodeUpd_inv (hnodesU ▸ hm)
  have hn'mem : n' ∈ stU.nodes := by
    rw [hnodesU]
    have := @mem_nodeUpd st b n' n hnmem
    rwa [if_pos hnb] at this
  have hothermem : ∀ m, m ∈ st.nodes → ¬ m.base = b → m ∈ stU.nodes := by
    intro m hm hmb
    rw [hnodesU]
    have := @mem_nodeUpd st b n' m hm
    rwa [if_neg hmb] at this
  have hbasesU : stU.nodes.map KNode.base = st.nodes.map KNode.base := by
    rw [hnodesU]
    exact nodeUpd_bases st b n' hn'b
  have hsizesU : stU.allocs.map KAlloc.obj_size = st.allocs.map KAlloc.obj_size :=
    allocUpd_sizes _ r _ (fun B => rfl)
  have hclassU : ∀ c, classPages stU c = classPages st c := by
    intro c
    show classPages (nodeUpd st b n') c = classPages st c
    exact classPages_nodeUpd st b c n' (fun m hm hmb => by
      rw [hbase_only m hm hmb]; exact hn'sz)
  have hallocsU : ∀ B', B' ∈ stU.allocs → ∃ B, B ∈ st.allocs ∧
      B' = if B.obj_size = r then { B with nobjs := nb B, list := L' } else B :=
    fun B' h => mem_allocUpd_inv h
  have hAU : ({ A with nobjs := nb A, list := L' } : KAlloc) ∈ stU.allocs := by
    have := @mem_allocUpd (nodeUpd st b n') r
      (fun B => { B with nobjs := nb B, list := L' }) A hAmem
    rwa [if_pos hAsz] at this
  refine ⟨?_, ?_, ?_, ?_, ?_, ?_, ?_, ?_, ?_, ?_, ?_⟩
  · obtain ⟨A0, hA0, hA0s⟩ := hB.adam_mem
    refine ⟨if A0.obj_size = r then { A0 with nobjs := nb A0, list := L' } else A0,
      mem_allocUpd hA0, ?_⟩
    by_cases h : A0.obj_size = r
    · rw [if_pos h]; exact hA0s
    · rw [if_neg h]; exact hA0s
  · rw [hsizesU]; exact hB.sizes_nodup
  · intro B' hB'
    obtain ⟨B, hBm, rfl⟩ := hallocsU B' hB'
    by_cases h : B.obj_size = r
    · rw [if_pos h]; exact hB.alloc_wf B hBm
    · rw [if_neg h]; exact hB.alloc_wf B hBm
  · intro m hm
    rcases hmemU m hm with rfl | ⟨hmm, _⟩
    · exact hwf'
    · exact hB.node_wf m hmm
  · rw [hbasesU]; exact hB.bases_nodup
  · intro m hm
    show m.base ≤ PGSIZE * st.nextPage
    rcases hmemU m hm with rfl | ⟨hmm, _⟩
    · rw [hn'b, ← hnb]; exact hB.bases_bound n hnmem
    · exact hB.bases_bound m hmm
  · intro m hm
    rcases hmemU m hm with rfl | ⟨hmm, _⟩
    · exact ⟨{ A with nobjs := nb A, list := L' }, hAU, (hn'sz.trans hnsz).symm⟩
    · obtain ⟨B, hBm, hBs⟩ := hB.node_alloc m hmm
      refine ⟨if B.obj_size = r then { B with nobjs := nb B, list := L' } else B,
        mem_allocUpd hBm, ?_⟩
      by_cases h : B.obj_size = r
      · rw [if_pos h]; exact hBs
      · rw [if_neg h]; exact hBs
  · intro B' hB' b' hb'
    obtain ⟨B, hBm, rfl⟩ := hallocsU B' hB'
    by_cases h : B.obj_size = r
    · obtain rfl : A = B := (halloc_only B hBm h).symm
      simp only [if_pos h] at hb' ⊢
      by_cases hbb : b' = b
      · subst hbb
        exact ⟨n', hn'mem, hn'b, hn'sz.trans hnsz⟩
      · have hbA : b' ∈ A.list := (hoL b' hbb).mp hb'
        obtain ⟨m, hmm, hmb, hms⟩ := hB.list_nodes A hAmem b' hbA
        exact ⟨m, hothermem m hmm (fun he => hbb (hmb.symm.trans he)), hmb, hms⟩
    · simp only [if_neg h] at hb' ⊢
      obtain ⟨m, hmm, hmb, hms⟩ := hB.list_nodes B hBm b' hb'
      have hmbne : ¬ m.base = b := by
        intro he
        have hmn := hbase_only m hmm he
        exact h (hms.symm.trans (by rw [hmn, hnsz]; exact hAsz))
      exact ⟨m, hothermem m hmm hmbne, hmb, hms⟩
  · intro B' hB'
    obtain ⟨B, hBm, rfl⟩ := hallocsU B' hB'
    by_cases h : B.obj_size = r <;> simp only [h, ite_true, ite_false]
    · exact hndL
    · exact hB.list_nodup B hBm
  · intro B' hB' m hm hms
    obtain ⟨B, hBm, rfl⟩ := hallocsU B' hB'
    by_cases h : B.obj_size = r
    · obtain rfl : A = B := (halloc_only B hBm h).symm
      simp only [if_pos h] at hms ⊢
      rcases hmemU m hm with rfl | ⟨hmm, hmb⟩
      · rw [hn'b]
        exact hbL
      · rw [hoL m.base hmb]
        exact hB.list_iff A hAmem m hmm hms
    · simp only [if_neg h] at hms ⊢
      rcases hmemU m hm with rfl | ⟨hmm, hmb⟩
      · exact absurd (hms.symm.trans (hn'sz.trans (hnsz.trans hAsz))) h
      · exact hB.list_iff B hBm m hmm hms
  · intro B' hB'
    obtain ⟨B, hBm, rfl⟩ := hallocsU B' hB'
    by_cases h : B.obj_size = r
    · rw [if_pos h]
      show B.npages = classPages stU _
      rw [hclassU]
      exact hB.npages_eq B hBm
    · rw [if_neg h]
      show B.npages = classPages stU _
      rw [hclassU]
      exact hB.npages_eq B hBm

theorem takeFromFront_run {st : KState} {r : Nat} {A : KAlloc} {b : Nat} {rest : List Nat}
    {n : KNode} (hA : allocFind st r = some A) (hl : A.list = b :: rest)
    (hn : nodeFind st b = some n) :
    takeFromFront r st = some (n.objAddr + n.avail * n.objSize,
      if n.table.getD n.avail 0 = TABLE_END then
        allocUpd (nodeUpd st b { n with cnt := n.cnt + 1, avail := n.table.getD n.avail 0 }) r
          (fun B => { B with nobjs := B.nobjs + 1, list := rest })
      else
        allocUpd (nodeUpd st b { n with cnt := n.cnt + 1, avail := n.table.getD n.avail 0 }) r
          (fun B => { B with nobjs := B.nobjs + 1 })) := by
  simp only [takeFromFront, hA, hl, hn]

/-- The heart of the allocation step: serving one object from the front node
    of class `r`, with the post-update "has space" list abstracted as `L'`
    (either `rest` — node now full, unlinked — or the unchanged `b :: rest`). -/
theorem takeStep_main {st : KState} {r : Nat} {A : KAlloc} {b : Nat} {rest : List Nat}
    (hB : KInvB st) (hcnt : ∀ m, m ∈ st.nodes → ¬ m.base = b → 0 < m.cnt)
    (hA : allocFind st r = some A) (hl : A.list = b :: rest)
    {n : KNode} (hnmem : n ∈ st.nodes) (hnb : n.base = b) (hnsz : n.objSize = A.obj_size)
    (L' : List Nat) (hbL : b ∈ L' ↔ ¬ (n.table.getD n.avail 0) = TABLE_END)
    (hoL : ∀ x, ¬ x = b → (x ∈ L' ↔ x ∈ b :: rest)) (hndL : L'.Nodup) :
    AllocStep st r (n.objAddr + n.avail * n.objSize)
      (allocUpd (nodeUpd st b { n with cnt := n.cnt + 1, avail := n.table.getD n.avail 0 }) r
        (fun B => { B with nobjs := B.nobjs + 1, list := L' }))
    ∧ (allocUpd (nodeUpd st b { n with cnt := n.cnt + 1, avail := n.table.getD n.avail 0 }) r
        (fun B => { B with nobjs := B.nobjs + 1, list := L' })).pagesAvail = st.pagesAvail
    ∧ (allocUpd (nodeUpd st b { n with cnt := n.cnt + 1, avail := n.table.getD n.avail 0 }) r
        (fun B => { B with nobjs := B.nobjs + 1, list := L' })).nextPage = st.nextPage
    ∧ (allocUpd (nodeUpd st b { n with cnt := n.cnt + 1, avail := n.table.getD n.avail 0 }) r
        (fun B => { B with nobjs := B.nobjs + 1, list := L' })).nodes.length = st.nodes.length
    ∧ (∀ c, classPages (allocUpd (nodeUpd st b
          { n with cnt := n.cnt + 1, avail := n.table.getD n.avail 0 }) r
        (fun B => { B with nobjs := B.nobjs + 1, list := L' })) c = classPages st c) := by
  obtain ⟨hAmem, hAsz⟩ := allocFind_mem hA
  have hwf := hB.node_wf n hnmem
  have havail : ¬ n.avail = TABLE_END :=
    (hB.list_iff A hAmem n hnmem hnsz).mp (by rw [hnb, hl]; exact List.mem_cons_self b rest)
  obtain ⟨fl, hch, hflnd, hcount⟩ := hwf.chain
  obtain ⟨rest', hfl, hav_lt, hch'⟩ := chain_of_ne_end hch havail
  obtain ⟨havnotin, hrestnd⟩ : n.avail ∉ rest' ∧ rest'.Nodup := by
    rw [hfl] at hflnd
    exact List.nodup_cons.mp hflnd
  have hAnd : (b :: rest).Nodup := hl ▸ hB.list_nodup A hAmem
  have hbnotrest : ¬ b ∈ rest := (List.nodup_cons.mp hAnd).1
  have hcapEnd : n.table.length ≤ TABLE_END := hwf.capa_le_end
  have hbase_only : ∀ m, m ∈ st.nodes → m.base = b → m = n := fun m hm hmb =>
    node_unique hB.bases_nodup hm hnmem (hmb.trans hnb.symm)
  have halloc_only : ∀ B, B ∈ st.allocs → B.obj_size = r → B = A := fun B hBm hBr =>
    alloc_unique hB.sizes_nodup hBm hAmem (hBr.trans hAsz.symm)
  -- the updated node
  set n' : KNode := { n with cnt := n.cnt + 1, avail := n.table.getD n.avail 0 } with hnodedef
  have hn'b : n'.base = b := hnb
  have hch'' : Chain n'.table n'.avail rest' := hch'
  have hcount' : n'.cnt + rest'.length = n'.table.length := by
    have : fl.length = rest'.length + 1 := by rw [hfl]; rfl
    simp only [hnodedef]
    omega
  have hwf' : NodeWF n' :=
    { size_min := hwf.size_min, size_max := hwf.size_max, size_align := hwf.size_align
      base_align := hwf.base_align, base_pos := hwf.base_pos, capa_eq := hwf.capa_eq
      addr_eq := hwf.addr_eq, chain := ⟨rest', hch'', hrestnd, hcount'⟩ }
  have hliveN : ∀ i, LiveIdx n i ↔ i < n.table.length ∧ ¬ i ∈ fl := fun i =>
    liveIdx_iff hcapEnd hch i
  have hliveN' : ∀ i, LiveIdx n' i ↔ i < n.table.length ∧ ¬ i ∈ rest' := fun i =>
    @liveIdx_iff n' rest' hcapEnd hch'' i
  -- the returned address is not live beforehand
  have hfresh : ¬ isLive st (n.objAddr + n.avail * n.objSize) := by
    intro ⟨m, hm, i, hiL, hieq⟩
    by_cases hmn : m = n
    · rw [hmn] at hiL hieq
      have hia : i = n.avail := hwf.addr_inj hieq.symm
      rw [hia] at hiL
      exact ((hliveN n.avail).mp hiL).2 (by rw [hfl]; exact List.mem_cons_self ..)
    · exact not_live_other hB.node_wf hB.bases_nodup hnmem
        ⟨n.avail, hav_lt, rfl⟩ hm hmn hiL hieq
  -- membership in the updated state
  set stU := allocUpd (nodeUpd st b n') r
    (fun B => { B with nobjs := B.nobjs + 1, list := L' }) with hstU
  have hnodesU : stU.nodes = (nodeUpd st b n').nodes := rfl
  have hmemU : ∀ m, m ∈ stU.nodes → m = n' ∨ (m ∈ st.nodes ∧ ¬ m.base = b) := by
    intro m hm
    exact mem_nodeUpd_inv (hnodesU ▸ hm)
  have hn'mem : n' ∈ stU.nodes := by
    rw [hnodesU]
    have := @mem_nodeUpd st b n' n hnmem
    rwa [if_pos hnb] at this
  have hothermem : ∀ m, m ∈ st.nodes → ¬ m.base = b → m ∈ stU.nodes := by
    intro m hm hmb
    rw [hnodesU]
    have := @mem_nodeUpd st b n' m hm
    rwa [if_neg hmb] at this
  have hbasesU : stU.nodes.map KNode.base = st.nodes.map KNode.base := by
    rw [hnodesU]
    exact nodeUpd_bases st b n' hn'b
  have hsizesU : stU.allocs.map KAlloc.obj_size = st.allocs.map KAlloc.obj_size :=
    allocUpd_sizes _ r _ (fun B => rfl)
  have hclassU : ∀ c, classPages stU c = classPages st c := by
    intro c
    show classPages (nodeUpd st b n') c = classPages st c
    exact classPages_nodeUpd st b c n' (fun m hm hmb => by rw [hbase_only m hm hmb])
  have hallocsU : ∀ B', B' ∈ stU.allocs → ∃ B, B ∈ st.allocs ∧
      B' = if B.obj_size = r then { B with nobjs := B.nobjs + 1, list := L' } else B :=
    fun B' h => mem_allocUpd_inv h
  have hAU : ({ A with nobjs := A.nobjs + 1, list := L' } : KAlloc) ∈ stU.allocs := by
    have := @mem_allocUpd (nodeUpd st b n') r
      (fun B => { B with nobjs := B.nobjs + 1, list := L' }) A hAmem
    rwa [if_pos hAsz] at this
  -- liveness after the step
  have hlive_iff : ∀ x, isLive stU x ↔
      (x = n.objAddr + n.avail * n.objSize ∨ isLive st x) := by
    intro x
    have hbase : isLive stU x ↔ _ := isLive_nodeUpd hnmem hnb n' x
    rw [hbase]
    constructor
    · rintro (⟨i, hiL, hieq⟩ | ⟨m, hm, hmb, i, hiL, hieq⟩)
      · obtain ⟨hilt, hinr⟩ := (hliveN' i).mp hiL
        by_cases hia : i = n.avail
        · subst hia
          exact Or.inl hieq
        · refine Or.inr ⟨n, hnmem, i, (hliveN i).mpr ⟨hilt, ?_⟩, hieq⟩
          rw [hfl]
          intro hmem
          rcases List.mem_cons.mp hmem with h | h
          · exact hia h
          · exact hinr h
      · exact Or.inr ⟨m, hm, i, hiL, hieq⟩
    · rintro (rfl | ⟨m, hm, i, hiL, hieq⟩)
      · exact Or.inl ⟨n.avail, (hliveN' n.avail).mpr ⟨hav_lt, havnotin⟩, rfl⟩
      · by_cases hmn : m = n
        · rw [hmn] at hiL hieq
          obtain ⟨hilt, hinfl⟩ := (hliveN i).mp hiL
          refine Or.inl ⟨i, (hliveN' i).mpr ⟨hilt, fun hr => hinfl ?_⟩, hieq⟩
          rw [hfl]
          exact List.mem_cons_of_mem _ hr
        · exact Or.inr ⟨m, hm, fun hmb => hmn (hbase_only m hm hmb), i, hiL, hieq⟩
  have hliveOf_iff : ∀ c x, isLiveOf stU c x ↔
      ((c = r ∧ x = n.objAddr + n.avail * n.objSize) ∨ isLiveOf st c x) := by
    intro c x
    have hbase : isLiveOf stU c x ↔ _ := isLiveOf_nodeUpd hnmem hnb n' c x
    rw [hbase]
    have hn'size : n'.objSize = r := hnsz.trans hAsz
    constructor
    · rintro (⟨hsz, i, hiL, hieq⟩ | ⟨m, hm, hmb, hsz, i, hiL, hieq⟩)
      · obtain ⟨hilt, hinr⟩ := (hliveN' i).mp hiL
        by_cases hia : i = n.avail
        · subst hia
          exact Or.inl ⟨hsz.symm.trans hn'size, hieq⟩
        · refine Or.inr ⟨n, hnmem, hn'size ▸ hsz, i, (hliveN i).mpr ⟨hilt, ?_⟩, hieq⟩
          rw [hfl]
          intro hmem
          rcases List.mem_cons.mp hmem with h | h
          · exact hia h
          · exact hinr h
      · exact Or.inr ⟨m, hm, hsz, i, hiL, hieq⟩
    · rintro (⟨rfl, rfl⟩ | ⟨m, hm, hsz, i, hiL, hieq⟩)
      · exact Or.inl ⟨hn'size, n.avail, (hliveN' n.avail).mpr ⟨hav_lt, havnotin⟩, rfl⟩
      · by_cases hmn : m = n
        · rw [hmn] at hiL hieq hsz
          obtain ⟨hilt, hinfl⟩ := (hliveN i).mp hiL
          refine Or.inl ⟨hsz, i, (hliveN' i).mpr ⟨hilt, fun hr => hinfl ?_⟩, hieq⟩
          rw [hfl]
          exact List.mem_cons_of_mem _ hr
        · exact Or.inr ⟨m, hm, fun hmb => hmn (hbase_only m hm hmb), hsz, i, hiL, hieq⟩
  -- the invariant after the step
  have hinvB : KInvB stU :=
    replaceNode_inv hB hA hnmem hnb hnsz (show n'.base = b from hnb) rfl hwf'
      (fun B => B.nobjs + 1) hbL (fun x hx => by rw [hl]; exact hoL x hx) hndL
  have hinv : KInv stU :=
    { toKInvB := hinvB
      node_cnt := by
        intro m hm
        rcases hmemU m hm with rfl | ⟨hmm, hmb⟩
        · exact Nat.succ_pos n.cnt
        · exact hcnt m hmm hmb }
  refine ⟨⟨hinv, hfresh, hwf.addr_align n.avail, hlive_iff, hliveOf_iff,
    ⟨n', hn'mem, hnsz.trans hAsz, ⟨n.avail, hav_lt, rfl⟩⟩, hsizesU, rfl⟩,
    rfl, rfl, ?_, hclassU⟩
  rw [hnodesU, nodeUpd_nodes]
  exact List.length_map ..

/-- Serving an object from class `r` when its "has space" list is non-empty. -/
theorem takeFromFront_spec {st : KState} {r : Nat} {A : KAlloc} {b : Nat} {rest : List Nat}
    (hB : KInvB st) (hcnt : ∀ m, m ∈ st.nodes → ¬ m.base = b → 0 < m.cnt)
    (hA : allocFind st r = some A) (hl : A.list = b :: rest) :
    ∃ a st', takeFromFront r st = some (a, st') ∧ AllocStep st r a st'
      ∧ st'.pagesAvail = st.pagesAvail ∧ st'.nextPage = st.nextPage
      ∧ st'.nodes.length = st.nodes.length
      ∧ (∀ c, classPages st' c = classPages st c) := by
  obtain ⟨hAmem, hAsz⟩ := allocFind_mem hA
  obtain ⟨n, hnmem, hnb, hnsz⟩ :=
    hB.list_nodes A hAmem b (by rw [hl]; exact List.mem_cons_self b rest)
  have hfindn : nodeFind st b = some n := by
    rw [← hnb]; exact nodeFind_self hB.bases_nodup hnmem
  have hrun := takeFromFront_run hA hl hfindn
  have hAnd : (b :: rest).Nodup := hl ▸ hB.list_nodup A hAmem
  have hbnr : ¬ b ∈ rest := (List.nodup_cons.mp hAnd).1
  by_cases hc : n.table.getD n.avail 0 = TABLE_END
  · rw [if_pos hc] at hrun
    obtain ⟨hstep, h1, h2, h3, h4⟩ := takeStep_main hB hcnt hA hl hnmem hnb hnsz rest
      (iff_of_false hbnr (fun hne => hne hc)) (fun x hx => by
        constructor
        · intro h
          exact List.mem_cons_of_mem _ h
        · intro h
          rcases List.mem_cons.mp h with rfl | h
          · exact absurd rfl hx
          · exact h)
      (List.nodup_cons.mp hAnd).2
    exact ⟨_, _, hrun, hstep, h1, h2, h3, h4⟩
  · rw [if_neg hc] at hrun
    have hgeq : ∀ B, B ∈ (nodeUpd st b
          { n with cnt := n.cnt + 1, avail := n.table.getD n.avail 0 }).allocs →
        B.obj_size = r → ({ B with nobjs := B.nobjs + 1 } : KAlloc)
          = { B with nobjs := B.nobjs + 1, list := b :: rest } := by
      intro B hBm hBr
      have hBA : B = A := alloc_unique hB.sizes_nodup hBm hAmem (hBr.trans hAsz.symm)
      have hBl : B.list = b :: rest := by rw [hBA, hl]
      rw [← hBl]
    rw [allocUpd_congr hgeq] at hrun
    obtain ⟨hstep, h1, h2, h3, h4⟩ := takeStep_main hB hcnt hA hl hnmem hnb hnsz (b :: rest)
      (iff_of_true (List.mem_cons_self b rest) hc) (fun x _ => Iff.rfl) hAnd
    exact ⟨_, _, hrun, hstep, h1, h2, h3, h4⟩

/-- The freshly formatted slab node is well formed, with the full free chain
    `0 → 1 → … → capa-1` and no live object. -/
theorem freshNode_wf {r : Nat} (h1 : KMEM_OBJ_MIN_SIZE ≤ r) (h2 : r ≤ KMEM_OBJ_MAX_SIZE)
    (h3 : r % 16 = 0) {bp : Nat} (hbp : bp % PGSIZE = 0) (hpos : 0 < bp) :
    NodeWF (freshNode bp r) ∧ (freshNode bp r).cnt = 0
    ∧ Chain (freshNode bp r).table (freshNode bp r).avail (List.range (calc_capa r))
    ∧ (∀ i, ¬ LiveIdx (freshNode bp r) i) := by
  have h1' : 32 ≤ r := by simpa [KMEM_OBJ_MIN_SIZE] using h1
  have h2' : r ≤ 4048 := by simpa [KMEM_OBJ_MAX_SIZE] using h2
  have hmod := calc_capa_mod h1'
  have hcpos : 0 < calc_capa r := calc_capa_pos h2'
  have hch : Chain (freshNode bp r).table (freshNode bp r).avail (List.range (calc_capa r)) := by
    show Chain (freshTable (calc_capa r % 256)) 0 (List.range (calc_capa r))
    rw [hmod]
    exact chain_fresh hcpos
  have hlen : (freshNode bp r).table.length = calc_capa r := by
    show (freshTable (calc_capa r % 256)).length = calc_capa r
    rw [freshTable_length, hmod]
  have hwf : NodeWF (freshNode bp r) :=
    { size_min := h1, size_max := h2, size_align := h3
      base_align := hbp, base_pos := hpos
      capa_eq := hlen
      addr_eq := by
        show bp + ROUNDUP16 (KMEM_NODE_FIX + calc_capa r % 256)
          = bp + ROUNDUP16 (KMEM_NODE_FIX + (freshNode bp r).table.length)
        rw [hlen, hmod]
      chain := ⟨List.range (calc_capa r), hch, List.nodup_range _, by
        have hc0 : (freshNode bp r).cnt = 0 := rfl
        rw [hlen, List.length_range, hc0]
        exact Nat.zero_add _⟩ }
  refine ⟨hwf, rfl, hch, ?_⟩
  intro i hi
  obtain ⟨hilt, hnot⟩ := hi
  rw [hlen] at hilt
  exact hnot (List.range (calc_capa r)) hch (List.mem_range.mpr hilt)

/-- The state after the `NULL == alloc->list` branch of `kmalloc` has
    obtained and formatted one fresh page for class `r` and linked it as the
    class's single "has space" node (lines 173-196), just before the object
    is taken. -/
def freshPathState (st : KState) (r : Nat) : KState :=
  allocUpd { st with
      pagesAvail := st.pagesAvail - 1, nextPage := st.nextPage + 1,
      nodes := freshNode (PGSIZE * (st.nextPage + 1)) r :: st.nodes } r
    (fun B => { B with npages := B.npages + 1, list := [PGSIZE * (st.nextPage + 1)] })

/-- Formatting one fresh page for class `r` preserves the invariant; the new
    node is the single entry of the class's "has space" list and carries no
    live object yet. -/
theorem freshPath_setup {st : KState} {r : Nat} {A : KAlloc} (hI : KInv st)
    (h1 : KMEM_OBJ_MIN_SIZE ≤ r) (h2 : r ≤ KMEM_OBJ_MAX_SIZE) (h3 : r % 16 = 0)
    (hA : allocFind st r = some A) (hl : A.list = []) :
    KInvB (freshPathState st r)
    ∧ (∀ m, m ∈ (freshPathState st r).nodes → ¬ m.base = PGSIZE * (st.nextPage + 1) → 0 < m.cnt)
    ∧ allocFind (freshPathState st r) r
      = some { A with npages := A.npages + 1, list := [PGSIZE * (st.nextPage + 1)] }
    ∧ (∀ x, isLive (freshPathState st r) x ↔ isLive st x)
    ∧ (∀ c x, isLiveOf (freshPathState st r) c x ↔ isLiveOf st c x)
    ∧ (freshPathState st r).allocs.map KAlloc.obj_size = st.allocs.map KAlloc.obj_size := by
  obtain ⟨hAmem, hAsz⟩ := allocFind_mem hA
  have hbp_align : (PGSIZE * (st.nextPage + 1)) % PGSIZE = 0 := Nat.mul_mod_right ..
  have hbp_pos : 0 < PGSIZE * (st.nextPage + 1) := by
    simp only [PGSIZE]
    omega
  obtain ⟨hwfN, hcntN, hchN, hnoliveN⟩ := freshNode_wf h1 h2 h3 hbp_align hbp_pos
  have hbp_fresh : ∀ m, m ∈ st.nodes → ¬ m.base = PGSIZE * (st.nextPage + 1) := by
    intro m hm he
    have := hI.bases_bound m hm
    rw [he] at this
    simp only [PGSIZE] at this
    omega
  have halloc_only : ∀ B, B ∈ st.allocs → B.obj_size = r → B = A := fun B hBm hBr =>
    alloc_unique hI.sizes_nodup hBm hAmem (hBr.trans hAsz.symm)
  have hst3nodes : (freshPathState st r).nodes
      = freshNode (PGSIZE * (st.nextPage + 1)) r :: st.nodes := rfl
  have hmem3 : ∀ m, m ∈ (freshPathState st r).nodes →
      m = freshNode (PGSIZE * (st.nextPage + 1)) r ∨ m ∈ st.nodes := by
    intro m hm
    rw [hst3nodes] at hm
    exact List.mem_cons.mp hm
  have hsizes3 : (freshPathState st r).allocs.map KAlloc.obj_size
      = st.allocs.map KAlloc.obj_size :=
    allocUpd_sizes _ r _ (fun B => rfl)
  have hallocs3 : ∀ B', B' ∈ (freshPathState st r).allocs → ∃ B, B ∈ st.allocs ∧
      B' = if B.obj_size = r
        then { B with npages := B.npages + 1, list := [PGSIZE * (st.nextPage + 1)] } else B :=
    fun B' h => mem_allocUpd_inv h
  have hmemUpd : ∀ B, B ∈ st.allocs →
      (if B.obj_size = r
        then { B with npages := B.npages + 1, list := [PGSIZE * (st.nextPage + 1)] } else B)
        ∈ (freshPathState st r).allocs :=
    fun B hB => mem_allocUpd hB
  have hlive3 : ∀ x, isLive (freshPathState st r) x ↔ isLive st x := by
    intro x
    constructor
    · intro ⟨m, hm, i, hiL, hieq⟩
      rcases hmem3 m hm with rfl | hmm
      · exact absurd hiL (hnoliveN i)
      · exact ⟨m, hmm, i, hiL, hieq⟩
    · intro ⟨m, hm, i, hiL, hieq⟩
      exact ⟨m, by rw [hst3nodes]; exact List.mem_cons_of_mem _ hm, i, hiL, hieq⟩
  have hliveOf3 : ∀ c x, isLiveOf (freshPathState st r) c x ↔ isLiveOf st c x := by
    intro c x
    constructor
    · intro ⟨m, hm, hsz, i, hiL, hieq⟩
      rcases hmem3 m hm with rfl | hmm
      · exact absurd hiL (hnoliveN i)
      · exact ⟨m, hmm, hsz, i, hiL, hieq⟩
    · intro ⟨m, hm, hsz, i, hiL, hieq⟩
      exact ⟨m, by rw [hst3nodes]; exact List.mem_cons_of_mem _ hm, hsz, i, hiL, hieq⟩
  have hfind3 : allocFind (freshPathState st r) r
      = some { A with npages := A.npages + 1, list := [PGSIZE * (st.nextPage + 1)] } := by
    have heq := allocFind_allocUpd { st with
        pagesAvail := st.pagesAvail - 1, nextPage := st.nextPage + 1,
        nodes := freshNode (PGSIZE * (st.nextPage + 1)) r :: st.nodes } r r
      (fun B => { B with npages := B.npages + 1, list := [PGSIZE * (st.nextPage + 1)] })
      (fun B => rfl)
    have hfind2 : allocFind { st with
        pagesAvail := st.pagesAvail - 1, nextPage := st.nextPage + 1,
        nodes := freshNode (PGSIZE * (st.nextPage + 1)) r :: st.nodes } r = some A := hA
    rw [show allocFind (freshPathState st r) r = _ from heq, hfind2]
    simp only [Option.map_some']
    rw [if_pos hAsz]
  have hclass3 : ∀ c, classPages (freshPathState st r) c
      = (if r = c then 1 else 0) + classPages st c := by
    intro c
    have : classPages (freshPathState st r) c
        = classPages { st with
            pagesAvail := st.pagesAvail - 1, nextPage := st.nextPage + 1,
            nodes := freshNode (PGSIZE * (st.nextPage + 1)) r :: st.nodes } c := rfl
    rw [this]
    have hc := classPages_cons { st with
        pagesAvail := st.pagesAvail - 1, nextPage := st.nextPage + 1,
        nodes := st.nodes } (freshNode (PGSIZE * (st.nextPage + 1)) r) c
    simp only [classPages] at hc ⊢
    exact hc
  refine ⟨⟨?_, ?_, ?_, ?_, ?_, ?_, ?_, ?_, ?_, ?_, ?_⟩, ?_, hfind3, hlive3, hliveOf3, hsizes3⟩
  · obtain ⟨A0, hA0, hA0s⟩ := hI.adam_mem
    refine ⟨if A0.obj_size = r
      then { A0 with npages := A0.npages + 1, list := [PGSIZE * (st.nextPage + 1)] } else A0,
      hmemUpd A0 hA0, ?_⟩
    by_cases h : A0.obj_size = r
    · rw [if_pos h]; exact hA0s
    · rw [if_neg h]; exact hA0s
  · rw [hsizes3]; exact hI.sizes_nodup
  · intro B' hB'
    obtain ⟨B, hBm, rfl⟩ := hallocs3 B' hB'
    by_cases h : B.obj_size = r
    · rw [if_pos h]; exact hI.alloc_wf B hBm
    · rw [if_neg h]; exact hI.alloc_wf B hBm
  · intro m hm
    rcases hmem3 m hm with rfl | hmm
    · exact hwfN
    · exact hI.node_wf m hmm
  · rw [hst3nodes, List.map_cons]
    rw [List.nodup_cons]
    refine ⟨?_, hI.bases_nodup⟩
    intro hmem
    obtain ⟨m, hmm, hmb⟩ := List.mem_map.mp hmem
    exact hbp_fresh m hmm hmb
  · intro m hm
    show m.base ≤ PGSIZE * (st.nextPage + 1)
    rcases hmem3 m hm with rfl | hmm
    · exact Nat.le_refl _
    · have := hI.bases_bound m hmm
      have hmono : PGSIZE * st.nextPage ≤ PGSIZE * (st.nextPage + 1) :=
        Nat.mul_le_mul_left _ (Nat.le_succ _)
      omega
  · intro m hm
    rcases hmem3 m hm with rfl | hmm
    · refine ⟨{ A with npages := A.npages + 1, list := [PGSIZE * (st.nextPage + 1)] }, ?_, hAsz⟩
      have := hmemUpd A hAmem
      rwa [if_pos hAsz] at this
    · obtain ⟨B, hBm, hBs⟩ := hI.node_alloc m hmm
      refine ⟨if B.obj_size = r
        then { B with npages := B.npages + 1, list := [PGSIZE * (st.nextPage + 1)] } else B,
        hmemUpd B hBm, ?_⟩
      by_cases h : B.obj_size = r
      · rw [if_pos h]; exact hBs
      · rw [if_neg h]; exact hBs
  · intro B' hB' b' hb'
    obtain ⟨B, hBm, rfl⟩ := hallocs3 B' hB'
    by_cases h : B.obj_size = r
    · obtain rfl : A = B := (halloc_only B hBm h).symm
      simp only [if_pos h] at hb' ⊢
      rcases List.mem_singleton.mp hb' with rfl
      exact ⟨freshNode (PGSIZE * (st.nextPage + 1)) r,
        by rw [hst3nodes]; exact List.mem_cons_self .., rfl, hAsz.symm⟩
    · simp only [if_neg h] at hb' ⊢
      obtain ⟨m, hmm, hmb, hms⟩ := hI.list_nodes B hBm b' hb'
      exact ⟨m, by rw [hst3nodes]; exact List.mem_cons_of_mem _ hmm, hmb, hms⟩
  · intro B' hB'
    obtain ⟨B, hBm, rfl⟩ := hallocs3 B' hB'
    by_cases h : B.obj_size = r
    · rw [if_pos h]
      exact List.nodup_singleton _
    · rw [if_neg h]
      exact hI.list_nodup B hBm
  · intro B' hB' m hm hms
    obtain ⟨B, hBm, rfl⟩ := hallocs3 B' hB'
    by_cases h : B.obj_size = r
    · obtain rfl : A = B := (halloc_only B hBm h).symm
      simp only [if_pos h] at hms ⊢
      rcases hmem3 m hm with rfl | hmm
      · simp only [List.mem_singleton]
        constructor
        · intro _
          intro hav
          have h0 : (0 : Nat) = TABLE_END := hav
          simp [TABLE_END] at h0
        · intro _
          rfl
      · have hmr : m.objSize = A.obj_size := hms
        have hold := hI.list_iff A hAmem m hmm hmr
        rw [hl] at hold
        simp only [List.not_mem_nil, false_iff, not_not] at hold
        simp only [List.mem_singleton]
        constructor
        · intro he
          exact absurd he (hbp_fresh m hmm)
        · intro hne
          exact absurd hold hne
    · simp only [if_neg h] at hms ⊢
      rcases hmem3 m hm with rfl | hmm
      · exact absurd hms.symm h
      · exact hI.list_iff B hBm m hmm hms
  · intro B' hB'
    obtain ⟨B, hBm, rfl⟩ := hallocs3 B' hB'
    by_cases h : B.obj_size = r
    · rw [if_pos h]
      show B.npages + 1 = classPages (freshPathState st r) B.obj_size
      rw [hclass3, if_pos h.symm, hI.npages_eq B hBm]
      omega
    · rw [if_neg h]
      show B.npages = classPages (freshPathState st r) B.obj_size
      rw [hclass3, if_neg (fun he => h he.symm), hI.npages_eq B hBm]
      omega
  · intro m hm hmb
    rcases hmem3 m hm with rfl | hmm
    · exact absurd rfl hmb
    · exact hI.node_cnt m hmm

/-- A successful core allocation of one object of (rounded) size `r`. -/
theorem allocObjCore_spec {st : KState} {r : Nat} (hI : KInv st)
    (h1 : KMEM_OBJ_MIN_SIZE ≤ r) (h2 : r ≤ KMEM_OBJ_MAX_SIZE) (h3 : r % 16 = 0)
    {a : Nat} {st' : KState} (hres : allocObjCore r st = some (a, st')) :
    AllocStep st r a st' := by
  cases hA : allocFind st r with
  | none => simp [allocObjCore, hA] at hres
  | some A =>
    cases hl : A.list with
    | cons b rest =>
      have hres' : takeFromFront r st = some (a, st') := by
        simpa [allocObjCore, hA, hl] using hres
      obtain ⟨a0, st0, hrun, hstep, _, _, _, _⟩ := takeFromFront_spec hI.toKInvB
        (fun m hm _ => hI.node_cnt m hm) hA hl
      rw [hrun] at hres'
      simp only [Option.some.injEq, Prod.mk.injEq] at hres'
      obtain ⟨rfl, rfl⟩ := hres'
      exact hstep
    | nil =>
      by_cases hp : st.pagesAvail = 0
      · simp [allocObjCore, hA, hl, allocpage, hp] at hres
      · have hres' : takeFromFront r (freshPathState st r) = some (a, st') := by
          simpa [allocObjCore, hA, hl, allocpage, hp, freshPathState] using hres
        obtain ⟨hB3, hcnt3, hfind3, hlive3, hliveOf3, hsizes3⟩ :=
          freshPath_setup hI h1 h2 h3 hA hl
        obtain ⟨a0, st0, hrun, hstep, _, _, _, _⟩ :=
          takeFromFront_spec hB3 hcnt3 hfind3 rfl
        rw [hrun] at hres'
        simp only [Option.some.injEq, Prod.mk.injEq] at hres'
        obtain ⟨rfl, rfl⟩ := hres'
        exact
          { inv' := hstep.inv'
            fresh := fun h => hstep.fresh ((hlive3 a0).mpr h)
            align := hstep.align
            live_iff := fun x => by rw [hstep.live_iff x, hlive3 x]
            liveOf_iff := fun c x => by rw [hstep.liveOf_iff c x, hliveOf3 c x]
            node_ex := hstep.node_ex
            sizes_eq := hstep.sizes_eq.trans hsizes3
            freed_eq := hstep.freed_eq }

theorem adamSize_bounds :
    KMEM_OBJ_MIN_SIZE ≤ adamSize ∧ adamSize ≤ KMEM_OBJ_MAX_SIZE ∧ adamSize % 16 = 0 := by
  decide

/-- A successful `get_allocator`: the rounded size keys a registered
    instance, the invariant holds, and at most one new live object (the
    lazily created instance's own backing object) appeared. -/
theorem get_allocator_some {st : KState} (hI : KInv st) {raw r : Nat} {st1 : KState}
    (hres : get_allocator raw st = some (r, st1))
    (h1 : KMEM_OBJ_MIN_SIZE ≤ ROUNDUP16 raw) (h2 : ROUNDUP16 raw ≤ KMEM_OBJ_MAX_SIZE) :
    r = ROUNDUP16 raw ∧ KInv st1 ∧ (∃ B, allocFind st1 r = some B)
    ∧ (∀ x, isLive st x → isLive st1 x)
    ∧ st1.freedPages = st.freedPages := by
  cases hf : allocFind st (ROUNDUP16 raw) with
  | some A =>
    have : (some (ROUNDUP16 raw, st) : Option (Nat × KState)) = some (r, st1) := by
      simpa [get_allocator, hf] using hres
    simp only [Option.some.injEq, Prod.mk.injEq] at this
    obtain ⟨rfl, rfl⟩ := this
    exact ⟨rfl, hI, ⟨A, hf⟩, fun x h => h, rfl⟩
  | none =>
    cases hco : allocObjCore adamSize st with
    | none => simp [get_allocator, hf, hco] at hres
    | some pr =>
      obtain ⟨addr, stA⟩ := pr
      have heq : (some (ROUNDUP16 raw,
          { stA with allocs := stA.allocs ++ [⟨ROUNDUP16 raw, 0, 0, []⟩] })
            : Option (Nat × KState)) = some (r, st1) := by
        simpa [get_allocator, hf, hco] using hres
      simp only [Option.some.injEq, Prod.mk.injEq] at heq
      obtain ⟨rfl, rfl⟩ := heq
      obtain ⟨ha1, ha2, ha3⟩ := adamSize_bounds
      have hstepA : AllocStep st adamSize addr stA := allocObjCore_spec hI ha1 ha2 ha3 hco
      have hIA := hstepA.inv'
      have hr_notin : ¬ ROUNDUP16 raw ∈ st.allocs.map KAlloc.obj_size := by
        intro hmem
        obtain ⟨B, hBm, hBs⟩ := List.mem_map.mp hmem
        exact allocFind_none hf B hBm hBs
      have hr_notinA : ¬ ROUNDUP16 raw ∈ stA.allocs.map KAlloc.obj_size := by
        rw [hstepA.sizes_eq]
        exact hr_notin
      have hfindA_none : allocFind stA (ROUNDUP16 raw) = none := by
        rw [allocFind, List.find?_eq_none]
        intro B hBm
        simp only [decide_eq_true_eq]
        intro hBs
        exact hr_notinA (hBs ▸ List.mem_map_of_mem KAlloc.obj_size hBm)
      have hnoNode : ∀ m, m ∈ stA.nodes → ¬ m.objSize = ROUNDUP16 raw := by
        intro m hmm hms
        obtain ⟨B, hBm, hBs⟩ := hIA.node_alloc m hmm
        exact hr_notinA ((hBs.trans hms) ▸ List.mem_map_of_mem KAlloc.obj_size hBm)
      have hsizes1 : ({ stA with allocs := stA.allocs ++ [⟨ROUNDUP16 raw, 0, 0, []⟩] }
          : KState).allocs.map KAlloc.obj_size
          = stA.allocs.map KAlloc.obj_size ++ [ROUNDUP16 raw] := by
        simp
      have hmem1 : ∀ B, B ∈ ({ stA with
          allocs := stA.allocs ++ [⟨ROUNDUP16 raw, 0, 0, []⟩] } : KState).allocs →
          B ∈ stA.allocs ∨ B = ⟨ROUNDUP16 raw, 0, 0, []⟩ := by
        intro B hB
        rcases List.mem_append.mp hB with h | h
        · exact Or.inl h
        · exact Or.inr (List.mem_singleton.mp h)
      refine ⟨rfl, ⟨⟨?_, ?_, ?_, ?_, ?_, ?_, ?_, ?_, ?_, ?_, ?_⟩, ?_⟩, ?_, ?_, ?_⟩
      · obtain ⟨A0, hA0, hA0s⟩ := hIA.adam_mem
        exact ⟨A0, List.mem_append_left _ hA0, hA0s⟩
      · rw [hsizes1]
        refine List.Nodup.append hIA.sizes_nodup (List.nodup_singleton _) ?_
        intro x hx hmem
        rw [List.mem_singleton] at hmem
        subst hmem
        exact hr_notinA hx
      · intro B hB
        rcases hmem1 B hB with h | rfl
        · exact hIA.alloc_wf B h
        · exact ⟨h1, h2, ROUNDUP16_mod raw⟩
      · exact hIA.node_wf
      · exact hIA.bases_nodup
      · exact hIA.bases_bound
      · intro m hm
        obtain ⟨B, hBm, hBs⟩ := hIA.node_alloc m hm
        exact ⟨B, List.mem_append_left _ hBm, hBs⟩
      · intro B hB b' hb'
        rcases hmem1 B hB with h | rfl
        · obtain ⟨m, hmm, hmb, hms⟩ := hIA.list_nodes B h b' hb'
          exact ⟨m, hmm, hmb, hms⟩
        · cases hb'
      · intro B hB
        rcases hmem1 B hB with h | rfl
        · exact hIA.list_nodup B h
        · exact List.nodup_nil
      · intro B hB m hm hms
        rcases hmem1 B hB with h | rfl
        · exact hIA.list_iff B h m hm hms
        · exact absurd hms (hnoNode m hm)
      · intro B hB
        rcases hmem1 B hB with h | rfl
        · exact hIA.npages_eq B h
        · show 0 = classPages _ _
          rw [classPages]
          rw [List.filter_eq_nil_iff.mpr (fun m hm => by
            simp only [decide_eq_true_eq]
            exact hnoNode m hm)]
          rfl
      · exact hIA.node_cnt
      · refine ⟨⟨ROUNDUP16 raw, 0, 0, []⟩, ?_⟩
        rw [allocFind, List.find?_append, show List.find? (fun A => A.obj_size = ROUNDUP16 raw)
          stA.allocs = none from hfindA_none]
        simp
      · intro x hx
        exact (hstepA.live_iff x).mpr (Or.inr hx)
      · exact hstepA.freed_eq

/-- `kmalloc` with any size: the invariant is preserved, no page is ever
    returned by it, and a successful call hands out a 16-aligned address
    that was not live before, inside the object region of some node of the
    resulting state. -/
theorem kmalloc_spec {st : KState} (hI : KInv st) (size : Nat) :
    KInv (kmalloc size st).2
    ∧ (kmalloc size st).2.freedPages = st.freedPages
    ∧ ∀ a, (kmalloc size st).1 = some a →
        a % 16 = 0 ∧ ¬ isLive st a
        ∧ ∃ m, m ∈ (kmalloc size st).2.nodes ∧ inRegion m a := by
  have hsz32 : KMEM_OBJ_MIN_SIZE ≤ (if size < KMEM_OBJ_MIN_SIZE then KMEM_OBJ_MIN_SIZE else size) := by
    by_cases h : size < KMEM_OBJ_MIN_SIZE
    · simp [h]
    · simp [h]
      omega
  by_cases hmax : KMEM_OBJ_MAX_SIZE < (if size < KMEM_OBJ_MIN_SIZE then KMEM_OBJ_MIN_SIZE else size)
  · have hkm : kmalloc size st = (none, st) := by
      simp only [kmalloc, if_pos hmax]
    rw [hkm]
    exact ⟨hI, rfl, fun a ha => by cases ha⟩
  · have hr1 : KMEM_OBJ_MIN_SIZE ≤
        ROUNDUP16 (if size < KMEM_OBJ_MIN_SIZE then KMEM_OBJ_MIN_SIZE else size) :=
      Nat.le_trans hsz32 (le_ROUNDUP16 _)
    have hr2 : ROUNDUP16 (if size < KMEM_OBJ_MIN_SIZE then KMEM_OBJ_MIN_SIZE else size)
        ≤ KMEM_OBJ_MAX_SIZE := by
      have hle : (if size < KMEM_OBJ_MIN_SIZE then KMEM_OBJ_MIN_SIZE else size)
          ≤ KMEM_OBJ_MAX_SIZE := Nat.le_of_not_lt hmax
      calc ROUNDUP16 _ ≤ ROUNDUP16 KMEM_OBJ_MAX_SIZE := ROUNDUP16_mono hle
        _ = KMEM_OBJ_MAX_SIZE := by decide
    cases hga : get_allocator (if size < KMEM_OBJ_MIN_SIZE then KMEM_OBJ_MIN_SIZE else size) st with
    | none =>
      have hkm : kmalloc size st = (none, st) := by
        simp only [kmalloc, if_neg hmax, hga]
      rw [hkm]
      exact ⟨hI, rfl, fun a ha => by cases ha⟩
    | some pr =>
      obtain ⟨r, st1⟩ := pr
      obtain ⟨rfl, hI1, ⟨B, hfB⟩, hmono, hfr⟩ := get_allocator_some hI hga hr1 hr2
      cases hco : allocObjCore
          (ROUNDUP16 (if size < KMEM_OBJ_MIN_SIZE then KMEM_OBJ_MIN_SIZE else size)) st1 with
      | none =>
        have hkm : kmalloc size st = (none, st1) := by
          simp only [kmalloc, if_neg hmax, hga, hco]
        rw [hkm]
        exact ⟨hI1, hfr, fun a ha => by cases ha⟩
      | some pr2 =>
        obtain ⟨a, st2⟩ := pr2
        have hstep := allocObjCore_spec hI1 hr1 hr2 (ROUNDUP16_mod _) hco
        have hkm : kmalloc size st = (some a, st2) := by
          simp only [kmalloc, if_neg hmax, hga, hco]
        rw [hkm]
        refine ⟨hstep.inv', hstep.freed_eq.trans hfr, fun a' ha' => ?_⟩
        cases ha'
        refine ⟨hstep.align, fun h => hstep.fresh (hmono a h), ?_⟩
        obtain ⟨m, hm, _, hreg⟩ := hstep.node_ex
        exact ⟨m, hm, hreg⟩

/-! ## The free step -/

theorem kfree_run_keep {st : KState} {a : Nat} {n : KNode} {i : Nat}
    (hfind : nodeFind st (PGROUNDDOWN a) = some n)
    (hga : get_allocator n.objSize st = some (n.objSize, st))
    (hidx : ((a - n.objAddr) / n.objSize) % 256 = i)
    {n' : KNode}
    (hn' : n' = { n with table := n.table.set i n.avail, avail := i, cnt := n.cnt - 1 })
    {st4 : KState}
    (hst4 : st4 = nodeUpd (if n.avail = TABLE_END then
        allocUpd (allocUpd st n.objSize (fun A => { A with nobjs := A.nobjs - 1 }))
          n.objSize (fun A => { A with list := n.base :: A.list })
      else allocUpd st n.objSize (fun A => { A with nobjs := A.nobjs - 1 })) n.base n')
    (hc : ¬ n'.cnt = 0) :
    kfree a st = some st4 := by
  subst hn' hst4
  simp only [kfree, hfind, hga, hidx]
  rw [if_neg hc]

theorem kfree_run_drop {st : KState} {a : Nat} {n : KNode} {i : Nat}
    (hfind : nodeFind st (PGROUNDDOWN a) = some n)
    (hga : get_allocator n.objSize st = some (n.objSize, st))
    (hidx : ((a - n.objAddr) / n.objSize) % 256 = i)
    {n' : KNode}
    (hn' : n' = { n with table := n.table.set i n.avail, avail := i, cnt := n.cnt - 1 })
    {st4 : KState}
    (hst4 : st4 = nodeUpd (if n.avail = TABLE_END then
        allocUpd (allocUpd st n.objSize (fun A => { A with nobjs := A.nobjs - 1 }))
          n.objSize (fun A => { A with list := n.base :: A.list })
      else allocUpd st n.objSize (fun A => { A with nobjs := A.nobjs - 1 })) n.base n')
    (hc : n'.cnt = 0) {A4 : KAlloc}
    (hfind4 : allocFind st4 n.objSize = some A4) (hbm : n.base ∈ A4.list) :
    kfree a st = some (freepage (nodeRemove (allocUpd st4 n.objSize
      (fun B => { B with list := B.list.erase n.base, npages := B.npages - 1 })) n.base)) := by
  subst hn' hst4
  simp only [kfree, hfind, hga, hidx] at hfind4 ⊢
  rw [if_pos hc]
  simp only [hfind4, hbm, if_true]

/-- A duplicate-free list of `len` naturals below `len` covers all of them. -/
theorem full_cover {len : Nat} {l : List Nat} (hnd : l.Nodup)
    (hlt : ∀ x, x ∈ l → x < len) (hlen : len ≤ l.length) {j : Nat} (hj : j < len) :
    j ∈ l := by
  have hsub : l.toFinset ⊆ Finset.range len := by
    intro x hx
    rw [List.mem_toFinset] at hx
    exact Finset.mem_range.mpr (hlt x hx)
  have hcard : (Finset.range len).card ≤ l.toFinset.card := by
    rw [Finset.card_range, List.toFinset_card_of_nodup hnd]
    exact hlen
  have heq := Finset.eq_of_subset_of_card_le hsub hcard
  rw [← List.mem_toFinset, heq]
  exact Finset.mem_range.mpr hj

/-- A duplicate-free list of fewer than `len` naturals misses one below `len`. -/
theorem exists_lt_not_mem {len : Nat} {l : List Nat} (hnd : l.Nodup)
    (hlen : l.length < len) : ∃ j, j < len ∧ ¬ j ∈ l := by
  by_contra hcon
  push_neg at hcon
  have hsub : Finset.range len ⊆ l.toFinset := by
    intro x hx
    rw [List.mem_toFinset]
    exact hcon x (Finset.mem_range.mp hx)
  have hc := Finset.card_le_card hsub
  rw [Finset.card_range, List.toFinset_card_of_nodup hnd] at hc
  omega

/-- Returning a page to the page allocator does not disturb the invariant
    (it only moves the page-allocator counters). -/
theorem kinv_freepage {st : KState} (h : KInv st) : KInv (freepage st) :=
  { adam_mem := h.adam_mem, sizes_nodup := h.sizes_nodup, alloc_wf := h.alloc_wf,
    node_wf := h.node_wf, bases_nodup := h.bases_nodup, bases_bound := h.bases_bound,
    node_alloc := h.node_alloc, list_nodes := h.list_nodes, list_nodup := h.list_nodup,
    list_iff := h.list_iff, npages_eq := h.npages_eq, node_cnt := h.node_cnt }

/-- `kfree` on a live object of class `c`: the call succeeds — in particular
    the consistency panic cannot fire —, the invariant is preserved, the
    freed address is exactly the one object removed from the live set
    (objects of every other class are untouched), and the page-allocator and
    per-class page counters move together: the node's page is returned
    exactly when its live count reaches zero. -/
theorem kfree_spec {st : KState} (hI : KInv st) {c a : Nat}
    (ha : isLiveOf st c a) :
    ∃ st', kfree a st = some st'
      ∧ KInv st'
      ∧ (∀ d x, isLiveOf st' d x ↔ (isLiveOf st d x ∧ ¬ x = a))
      ∧ st'.nextPage = st.nextPage
      ∧ st'.pagesAvail + classPages st' c = st.pagesAvail + classPages st c
      ∧ st'.freedPages + classPages st' c = st.freedPages + classPages st c
      ∧ classPages st' c ≤ classPages st c
      ∧ (∀ d, ¬ d = c → classPages st' d = classPages st d) := by
  obtain ⟨n, hn, hnsz, i, hiL, hia⟩ := ha
  subst hnsz
  have hB := hI.toKInvB
  have hwf := hI.node_wf n hn
  have hcap := hwf.capa_le
  have hcapEnd := hwf.capa_le_end
  have hilt : i < n.table.length := hiL.1
  obtain ⟨fl, hch, hflnd, hcount⟩ := hwf.chain
  have hifl : ¬ i ∈ fl := hiL.2 fl hch
  have hcntpos : 0 < n.cnt := hI.node_cnt n hn
  -- how kfree recovers the node, the object index and the allocator
  have hpg : PGROUNDDOWN a = n.base := by rw [hia]; exact hwf.pgrounddown hilt
  have hfind : nodeFind st (PGROUNDDOWN a) = some n := by
    rw [hpg]; exact nodeFind_self hB.bases_nodup hn
  have hidx : ((a - n.objAddr) / n.objSize) % 256 = i := by
    rw [hia]; exact hwf.index_recover hilt
  obtain ⟨A, hAmem, hAsz⟩ := hB.node_alloc n hn
  have hfA : allocFind st n.objSize = some A := by
    rw [← hAsz]; exact allocFind_self hB.sizes_nodup hAmem
  have hga : get_allocator n.objSize st = some (n.objSize, st) := by
    simp only [get_allocator, ROUNDUP16_idem_of_mod hwf.size_align, hfA]
  have halloc_only : ∀ B, B ∈ st.allocs → B.obj_size = n.objSize → B = A := fun B hBm hBr =>
    alloc_unique hB.sizes_nodup hBm hAmem (hBr.trans hAsz.symm)
  -- the rebuilt node and the rebuilt "has space" list
  set n' : KNode := { n with table := n.table.set i n.avail, avail := i, cnt := n.cnt - 1 }
    with hnodedef
  set L3 : List Nat := if n.avail = TABLE_END then n.base :: A.list else A.list with hL3def
  set F : KAlloc → KAlloc := fun B => { B with nobjs := B.nobjs - 1, list := L3 } with hFdef
  set stM : KState := nodeUpd (allocUpd st n.objSize F) n.base n' with hstMdef
  have hndA : A.list.Nodup := hB.list_nodup A hAmem
  have hliffA : n.base ∈ A.list ↔ ¬ n.avail = TABLE_END :=
    hB.list_iff A hAmem n hn hAsz.symm
  have hiend : ¬ n'.avail = TABLE_END := by
    show ¬ i = TABLE_END
    simp only [TABLE_END]
    omega
  have hbL3 : n.base ∈ L3 ↔ ¬ n'.avail = TABLE_END := by
    refine ⟨fun _ => hiend, fun _ => ?_⟩
    rw [hL3def]
    by_cases hend : n.avail = TABLE_END
    · rw [if_pos hend]
      exact List.mem_cons_self ..
    · rw [if_neg hend]
      exact hliffA.mpr hend
  have hoL3 : ∀ x, ¬ x = n.base → (x ∈ L3 ↔ x ∈ A.list) := by
    intro x hx
    rw [hL3def]
    by_cases hend : n.avail = TABLE_END
    · rw [if_pos hend]
      simp [List.mem_cons, hx]
    · rw [if_neg hend]
  have hndL3 : L3.Nodup := by
    rw [hL3def]
    by_cases hend : n.avail = TABLE_END
    · rw [if_pos hend]
      exact List.nodup_cons.mpr ⟨fun hm => (hliffA.mp hm) hend, hndA⟩
    · rw [if_neg hend]
      exact hndA
  -- the rebuilt node is well-formed; its free list grew by the one index
  have hlen' : n'.table.length = n.table.length := by
    show (n.table.set i n.avail).length = n.table.length
    exact List.length_set ..
  have hch2 : Chain n'.table n.avail fl := chain_set_not_mem hch i n.avail hifl
  have hch' : Chain n'.table n'.avail (i :: fl) := by
    refine Chain.cons i fl (by rw [hlen']; exact hilt) ?_
    rw [show n'.table.getD i 0 = n.avail from getD_set_self hilt n.avail 0]
    exact hch2
  have hwf' : NodeWF n' :=
    { size_min := hwf.size_min, size_max := hwf.size_max, size_align := hwf.size_align
      base_align := hwf.base_align, base_pos := hwf.base_pos
      capa_eq := by rw [hlen']; exact hwf.capa_eq
      addr_eq := by rw [hlen']; exact hwf.addr_eq
      chain := ⟨i :: fl, hch', List.nodup_cons.mpr ⟨hifl, hflnd⟩, by
        show n.cnt - 1 + (i :: fl).length = n'.table.length
        rw [hlen']
        simp only [List.length_cons]
        omega⟩ }
  have hBM : KInvB stM :=
    replaceNode_inv hB hfA hn rfl hAsz.symm (show n'.base = n.base from rfl) rfl hwf'
      (fun B => B.nobjs - 1) hbL3 hoL3 hndL3
  -- membership in the relinked state
  have hmemM : ∀ m, m ∈ stM.nodes → m = n' ∨ (m ∈ st.nodes ∧ ¬ m.base = n.base) :=
    fun m hm => @mem_nodeUpd_inv st n.base n' m hm
  have hliveN : ∀ j, LiveIdx n j ↔ j < n.table.length ∧ ¬ j ∈ fl := fun j =>
    liveIdx_iff hcapEnd hch j
  have hliveN' : ∀ j, LiveIdx n' j ↔ j < n.table.length ∧ ¬ j ∈ i :: fl := by
    intro j
    have h0 := @liveIdx_iff n' (i :: fl) (by rw [hlen']; exact hcapEnd) hch' j
    rw [hlen'] at h0
    exact h0
  -- liveness after the relink: exactly `a` left the live set
  have hliveOfM : ∀ d x, isLiveOf stM d x ↔ (isLiveOf st d x ∧ ¬ x = a) := by
    intro d x
    have h0 : isLiveOf stM d x ↔ _ := @isLiveOf_nodeUpd st n.base n hn rfl n' d x
    rw [h0]
    constructor
    · rintro (⟨hsz, j, hjL, hjx⟩ | ⟨m, hm, hmb, hsz, j, hjL, hjx⟩)
      · obtain ⟨hjlt, hjnotin⟩ := (hliveN' j).mp hjL
        have hji : ¬ j = i := fun he => hjnotin (he ▸ List.mem_cons_self ..)
        have hjfl : ¬ j ∈ fl := fun hf => hjnotin (List.mem_cons_of_mem _ hf)
        refine ⟨⟨n, hn, hsz, j, (hliveN j).mpr ⟨hjlt, hjfl⟩, hjx⟩, ?_⟩
        intro he
        apply hji
        apply hwf.addr_inj
        show n.objAddr + j * n.objSize = n.objAddr + i * n.objSize
        rw [← hia, ← he]
        exact hjx.symm
      · refine ⟨⟨m, hm, hsz, j, hjL, hjx⟩, ?_⟩
        intro he
        exact region_disjoint (hI.node_wf m hm) hwf hmb ⟨j, hjL.1, by rw [← he]; exact hjx⟩
          ⟨i, hilt, hia⟩
    · rintro ⟨⟨m, hm, hsz, j, hjL, hjx⟩, hne⟩
      by_cases hmn : m = n
      · rw [hmn] at hsz hjL hjx
        obtain ⟨hjlt, hjfl⟩ := (hliveN j).mp hjL
        have hji : ¬ j = i := by
          intro he2
          apply hne
          rw [hjx, he2, ← hia]
        refine Or.inl ⟨hsz, j, (hliveN' j).mpr ⟨hjlt, ?_⟩, hjx⟩
        intro hmem
        rcases List.mem_cons.mp hmem with he2 | he2
        · exact hji he2
        · exact hjfl he2
      · refine Or.inr ⟨m, hm, ?_, hsz, j, hjL, hjx⟩
        intro hmb
        exact hmn (node_unique hB.bases_nodup hm hn hmb)
  have hclassM : ∀ d, classPages stM d = classPages st d := by
    intro d
    show classPages (nodeUpd st n.base n') d = classPages st d
    exact classPages_nodeUpd st n.base d n' (fun m hm hmb => by
      rw [node_unique hB.bases_nodup hm hn hmb])
  -- the raw state kfree builds, folded into the canonical form
  have hst3 : (if n.avail = TABLE_END then
        allocUpd (allocUpd st n.objSize (fun A => { A with nobjs := A.nobjs - 1 }))
          n.objSize (fun A => { A with list := n.base :: A.list })
      else allocUpd st n.objSize (fun A => { A with nobjs := A.nobjs - 1 }))
      = allocUpd st n.objSize F := by
    by_cases hend : n.avail = TABLE_END
    · rw [if_pos hend]
      rw [allocUpd_allocUpd st n.objSize (fun A => { A with nobjs := A.nobjs - 1 })
        (fun A => { A with list := n.base :: A.list }) (fun B => rfl)]
      apply allocUpd_congr
      intro B hBm hBs
      obtain rfl : A = B := (halloc_only B hBm hBs).symm
      rw [hFdef, hL3def, if_pos hend]
    · rw [if_neg hend]
      apply allocUpd_congr
      intro B hBm hBs
      obtain rfl : A = B := (halloc_only B hBm hBs).symm
      rw [hFdef, hL3def, if_neg hend]
  have hstM4 : stM = nodeUpd (if n.avail = TABLE_END then
        allocUpd (allocUpd st n.objSize (fun A => { A with nobjs := A.nobjs - 1 }))
          n.objSize (fun A => { A with list := n.base :: A.list })
      else allocUpd st n.objSize (fun A => { A with nobjs := A.nobjs - 1 })) n.base n' := by
    rw [hst3]
  by_cases hc0 : n'.cnt = 0
  · -- the freed object was its node's last: the node goes away, its page back
    have hcnt_eq : n.cnt = 1 := by
      have h1 : n.cnt - 1 = 0 := hc0
      omega
    have hfindM : allocFind stM n.objSize = some (F A) := by
      show allocFind (allocUpd st n.objSize F) n.objSize = some (F A)
      rw [allocFind_allocUpd st n.objSize n.objSize F (fun B => rfl), hfA]
      show some (if A.obj_size = n.objSize then F A else A) = some (F A)
      rw [if_pos hAsz]
    have hbmem : n.base ∈ (F A).list := by
      show n.base ∈ L3
      exact hbL3.mpr hiend
    have hkf : kfree a st = some (freepage (nodeRemove (allocUpd stM n.objSize
        (fun B => { B with list := B.list.erase n.base, npages := B.npages - 1 })) n.base)) :=
      kfree_run_drop hfind hga hidx hnodedef hstM4 hc0 hfindM hbmem
    set G : KAlloc → KAlloc :=
      fun B => { B with npages := B.npages - 1, nobjs := B.nobjs - 1, list := L3.erase n.base }
      with hGdef
    set st5 : KState := allocUpd (nodeRemove st n.base) n.objSize G with hst5def
    have hconv : nodeRemove (allocUpd stM n.objSize
        (fun B => { B with list := B.list.erase n.base, npages := B.npages - 1 })) n.base
        = st5 := by
      have h1 := allocUpd_allocUpd (nodeUpd st n.base n') n.objSize F
        (fun B => { B with list := B.list.erase n.base, npages := B.npages - 1 })
        (fun B => rfl)
      have h2 : allocUpd stM n.objSize
          (fun B => { B with list := B.list.erase n.base, npages := B.npages - 1 })
          = allocUpd (nodeUpd st n.base n') n.objSize G := by
        refine Eq.trans ?_ (h1.trans ?_)
        · rfl
        · rfl
      rw [h2]
      show allocUpd (nodeRemove (nodeUpd st n.base n') n.base) n.objSize G = st5
      rw [nodeRemove_nodeUpd st n.base n' rfl]
    rw [hconv] at hkf
    -- the one live index of a singly-populated node is the freed one
    have honly : ∀ j, LiveIdx n j → j = i := by
      intro j hj
      obtain ⟨hjlt, hjprop⟩ := hj
      have hjfl : ¬ j ∈ fl := hjprop fl hch
      have hcov : ∀ x, x ∈ i :: fl → x < n.table.length := by
        intro x hx
        rcases List.mem_cons.mp hx with rfl | hxm
        · exact hilt
        · exact Chain.elem_lt hch x hxm
      have hlenc : n.table.length ≤ (i :: fl).length := by
        simp only [List.length_cons]
        omega
      have hmem := full_cover (List.nodup_cons.mpr ⟨hifl, hflnd⟩) hcov hlenc hjlt
      rcases List.mem_cons.mp hmem with h | h
      · exact h
      · exact absurd h hjfl
    -- the invariant for the state with the node removed
    have hmemL5 : ∀ x, x ∈ L3.erase n.base ↔ (x ∈ A.list ∧ ¬ x = n.base) := by
      intro x
      rw [List.Nodup.mem_erase_iff hndL3]
      constructor
      · rintro ⟨hxne, hxL3⟩
        exact ⟨(hoL3 x hxne).mp hxL3, hxne⟩
      · rintro ⟨hxA, hxne⟩
        exact ⟨hxne, (hoL3 x hxne).mpr hxA⟩
    have hndL5 : (L3.erase n.base).Nodup := List.Nodup.erase n.base hndL3
    have hcpR_self : classPages (nodeRemove st n.base) n.objSize + 1
        = classPages st n.objSize := classPages_nodeRemove_self hB.bases_nodup hn
    have hcpR_other : ∀ d, ¬ d = n.objSize →
        classPages (nodeRemove st n.base) d = classPages st d :=
      fun d hd => classPages_nodeRemove_other hB.bases_nodup hn (fun he => hd he.symm)
    have hallocs5 : ∀ B', B' ∈ st5.allocs → ∃ B, B ∈ st.allocs ∧
        B' = if B.obj_size = n.objSize then G B else B :=
      fun B' h => @mem_allocUpd_inv (nodeRemove st n.base) n.objSize G B' h
    have hsizes5 : st5.allocs.map KAlloc.obj_size = st.allocs.map KAlloc.obj_size :=
      allocUpd_sizes (nodeRemove st n.base) n.objSize G (fun B => rfl)
    have hI5 : KInv st5 := by
      refine ⟨⟨?_, ?_, ?_, ?_, ?_, ?_, ?_, ?_, ?_, ?_, ?_⟩, ?_⟩
      · obtain ⟨A0, hA0, hA0s⟩ := hB.adam_mem
        refine ⟨if A0.obj_size = n.objSize then G A0 else A0,
          @mem_allocUpd (nodeRemove st n.base) n.objSize G A0 hA0, ?_⟩
        by_cases h : A0.obj_size = n.objSize
        · rw [if_pos h]; exact hA0s
        · rw [if_neg h]; exact hA0s
      · rw [hsizes5]; exact hB.sizes_nodup
      · intro B' hB'
        obtain ⟨B, hBm, rfl⟩ := hallocs5 B' hB'
        by_cases h : B.obj_size = n.objSize
        · rw [if_pos h]; exact hB.alloc_wf B hBm
        · rw [if_neg h]; exact hB.alloc_wf B hBm
      · intro m hm
        exact hB.node_wf m ((@mem_nodeRemove_iff st n.base m).mp hm).1
      · have hsub : (st5.nodes.map KNode.base).Sublist (st.nodes.map KNode.base) :=
          List.Sublist.map KNode.base (List.filter_sublist st.nodes)
        exact List.Nodup.sublist hsub hB.bases_nodup
      · intro m hm
        show m.base ≤ PGSIZE * st.nextPage
        exact hB.bases_bound m ((@mem_nodeRemove_iff st n.base m).mp hm).1
      · intro m hm
        obtain ⟨hmm, hmb⟩ := (@mem_nodeRemove_iff st n.base m).mp hm
        obtain ⟨B, hBm, hBs⟩ := hB.node_alloc m hmm
        refine ⟨if B.obj_size = n.objSize then G B else B,
          @mem_allocUpd (nodeRemove st n.base) n.objSize G B hBm, ?_⟩
        by_cases h : B.obj_size = n.objSize
        · rw [if_pos h]; exact hBs
        · rw [if_neg h]; exact hBs
      · intro B' hB' x hx
        obtain ⟨B, hBm, rfl⟩ := hallocs5 B' hB'
        by_cases h : B.obj_size = n.objSize
        · obtain rfl : A = B := (halloc_only B hBm h).symm
          simp only [if_pos h] at hx ⊢
          obtain ⟨hxA, hxne⟩ := (hmemL5 x).mp hx
          obtain ⟨m, hmm, hmb, hms⟩ := hB.list_nodes A hAmem x hxA
          refine ⟨m, ?_, hmb, hms⟩
          exact (@mem_nodeRemove_iff st n.base m).mpr
            ⟨hmm, fun he => hxne (hmb.symm.trans he)⟩
        · simp only [if_neg h] at hx ⊢
          obtain ⟨m, hmm, hmb, hms⟩ := hB.list_nodes B hBm x hx
          have hmbne : ¬ m.base = n.base := by
            intro he
            have hmn := node_unique hB.bases_nodup hmm hn he
            apply h
            rw [← hms, hmn]
          exact ⟨m, (@mem_nodeRemove_iff st n.base m).mpr ⟨hmm, hmbne⟩, hmb, hms⟩
      · intro B' hB'
        obtain ⟨B, hBm, rfl⟩ := hallocs5 B' hB'
        by_cases h : B.obj_size = n.objSize
        · obtain rfl : A = B := (halloc_only B hBm h).symm
          simp only [if_pos h]
          exact hndL5
        · simp only [if_neg h]
          exact hB.list_nodup B hBm
      · intro B' hB' m hm hms
        obtain ⟨B, hBm, rfl⟩ := hallocs5 B' hB'
        obtain ⟨hmm, hmb⟩ := (@mem_nodeRemove_iff st n.base m).mp hm
        by_cases h : B.obj_size = n.objSize
        · obtain rfl : A = B := (halloc_only B hBm h).symm
          simp only [if_pos h] at hms ⊢
          show m.base ∈ L3.erase n.base ↔ ¬ m.avail = TABLE_END
          have h0 : m.base ∈ L3.erase n.base ↔ m.base ∈ A.list := by
            rw [hmemL5 m.base]
            exact ⟨fun hh => hh.1, fun hh => ⟨hh, hmb⟩⟩
          rw [h0]
          exact hB.list_iff A hAmem m hmm hms
        · simp only [if_neg h] at hms ⊢
          exact hB.list_iff B hBm m hmm hms
      · intro B' hB'
        obtain ⟨B, hBm, rfl⟩ := hallocs5 B' hB'
        by_cases h : B.obj_size = n.objSize
        · obtain rfl : A = B := (halloc_only B hBm h).symm
          simp only [if_pos h]
          show A.npages - 1 = classPages st5 (G A).obj_size
          have hnp := hB.npages_eq A hAmem
          rw [hAsz] at hnp
          have hcp5 : classPages st5 (G A).obj_size
              = classPages (nodeRemove st n.base) n.objSize := by
            show classPages (nodeRemove st n.base) A.obj_size = _
            rw [hAsz]
          rw [hcp5]
          omega
        · simp only [if_neg h]
          show B.npages = classPages st5 B.obj_size
          have hcp5 : classPages st5 B.obj_size = classPages st B.obj_size := by
            show classPages (nodeRemove st n.base) B.obj_size = classPages st B.obj_size
            exact hcpR_other B.obj_size h
          rw [hcp5]
          exact hB.npages_eq B hBm
      · intro m hm
        exact hI.node_cnt m ((@mem_nodeRemove_iff st n.base m).mp hm).1
    have hliveOfF : ∀ d x, isLiveOf (freepage st5) d x ↔ (isLiveOf st d x ∧ ¬ x = a) := by
      intro d x
      have h0 : isLiveOf (freepage st5) d x ↔ isLiveOf (nodeRemove st n.base) d x := Iff.rfl
      rw [h0, @isLiveOf_nodeRemove st n.base d x]
      constructor
      · rintro ⟨m, hmm, hmb, hsz, j, hjL, hjx⟩
        refine ⟨⟨m, hmm, hsz, j, hjL, hjx⟩, ?_⟩
        intro he
        exact region_disjoint (hI.node_wf m hmm) hwf hmb ⟨j, hjL.1, by rw [← he]; exact hjx⟩
          ⟨i, hilt, hia⟩
      · rintro ⟨⟨m, hmm, hsz, j, hjL, hjx⟩, hne⟩
        by_cases hmn : m = n
        · exfalso
          rw [hmn] at hjL hjx
          apply hne
          rw [hjx, honly j hjL, ← hia]
        · exact ⟨m, hmm, fun hmb => hmn (node_unique hB.bases_nodup hmm hn hmb),
            hsz, j, hjL, hjx⟩
    refine ⟨freepage st5, hkf, kinv_freepage hI5, hliveOfF, rfl, ?_, ?_, ?_, ?_⟩
    · show st.pagesAvail + 1 + classPages (nodeRemove st n.base) n.objSize
        = st.pagesAvail + classPages st n.objSize
      omega
    · show st.freedPages + 1 + classPages (nodeRemove st n.base) n.objSize
        = st.freedPages + classPages st n.objSize
      omega
    · show classPages (nodeRemove st n.base) n.objSize ≤ classPages st n.objSize
      omega
    · intro d hd
      show classPages (nodeRemove st n.base) d = classPages st d
      exact hcpR_other d hd
  · -- the node keeps other live objects: only the relink happens
    have hkf : kfree a st = some stM := kfree_run_keep hfind hga hidx hnodedef hstM4 hc0
    refine ⟨stM, hkf, ⟨hBM, ?_⟩, hliveOfM, rfl, ?_, ?_, ?_, ?_⟩
    · intro m hm
      rcases hmemM m hm with rfl | ⟨hmm, hmb⟩
      · exact Nat.pos_of_ne_zero hc0
      · exact hI.node_cnt m hmm
    · show st.pagesAvail + classPages stM n.objSize = st.pagesAvail + classPages st n.objSize
      rw [hclassM]
    · show st.freedPages + classPages stM n.objSize = st.freedPages + classPages st n.objSize
      rw [hclassM]
    · exact Nat.le_of_eq (hclassM n.objSize)
    · exact fun d _ => hclassM d

/-- The state right after `kmallocinit()` satisfies the invariant. -/
theorem kinv_init (budget : Nat) : KInv (kmallocInit budget) := by
  refine ⟨⟨⟨adamAlloc, List.mem_singleton_self adamAlloc, rfl⟩,
    ?_, ?_, ?_, ?_, ?_, ?_, ?_, ?_, ?_, ?_⟩, ?_⟩
  · simp [kmallocInit, adamAlloc]
  · intro A hA
    have hAe : A = adamAlloc := List.mem_singleton.mp hA
    subst hAe
    exact adamSize_bounds
  · intro m hm
    exact absurd hm (List.not_mem_nil m)
  · simp [kmallocInit]
  · intro m hm
    exact absurd hm (List.not_mem_nil m)
  · intro m hm
    exact absurd hm (List.not_mem_nil m)
  · intro A hA x hx
    have hAe : A = adamAlloc := List.mem_singleton.mp hA
    subst hAe
    exact absurd hx (List.not_mem_nil x)
  · intro A hA
    have hAe : A = adamAlloc := List.mem_singleton.mp hA
    subst hAe
    exact List.nodup_nil
  · intro A _ m hm
    exact absurd hm (List.not_mem_nil m)
  · intro A hA
    have hAe : A = adamAlloc := List.mem_singleton.mp hA
    subst hAe
    rfl
  · intro m hm
    exact absurd hm (List.not_mem_nil m)

/-- Every state the subsystem's own interface can reach satisfies the
    invariant. -/
theorem kreach_inv {st : KState} (h : KReach st) : KInv st := by
  induction h with
  | init budget => exact kinv_init budget
  | stepMalloc size _ ih => exact (kmalloc_spec ih size).1
  | stepFree a _ hlive hfree ih =>
    obtain ⟨n, hn, i, hiL, hia⟩ := hlive
    obtain ⟨st2, hfree2, hI2, _⟩ := kfree_spec ih ⟨n, hn, rfl, i, hiL, hia⟩
    rw [hfree] at hfree2
    injection hfree2 with he
    rw [he]
    exact hI2

/-- Every slab node of an invariant state carries a live object of its
    class (a node losing its last object is freed at once). -/
theorem live_of_node {st : KState} (hI : KInv st) {n : KNode} (hn : n ∈ st.nodes) :
    ∃ x, isLiveOf st n.objSize x := by
  have hwf := hI.node_wf n hn
  obtain ⟨fl, hch, hflnd, hcount⟩ := hwf.chain
  have hcnt := hI.node_cnt n hn
  obtain ⟨j, hj, hjnot⟩ := @exists_lt_not_mem n.table.length fl hflnd (by omega)
  exact ⟨n.objAddr + j * n.objSize, n, hn, rfl, j,
    (liveIdx_iff hwf.capa_le_end hch j).mpr ⟨hj, hjnot⟩, rfl⟩

/-- A class with no live object backs no pages. -/
theorem classPages_zero {st : KState} (hI : KInv st) {c : Nat}
    (h : ∀ x, ¬ isLiveOf st c x) : classPages st c = 0 := by
  rw [classPages, List.length_eq_zero, List.filter_eq_nil_iff]
  intro n hn
  simp only [decide_eq_true_eq]
  intro hsz
  obtain ⟨x, hx⟩ := live_of_node hI hn
  exact h x (hsz ▸ hx)

/-- Freeing a duplicate-free enumeration of all the live objects of one size
    class: every call succeeds (the fatal consistency check never fires) and
    the page allocator gets back exactly one page per slab node of the class
    — the class ends with no backing page at all. -/
theorem kfreeSeq_spec {c : Nat} (addrs : List Nat) :
    ∀ st : KState, KInv st → addrs.Nodup → (∀ x, x ∈ addrs ↔ isLiveOf st c x) →
    ∃ st', kfreeSeq addrs st = some st'
      ∧ st'.pagesAvail = st.pagesAvail + classPages st c
      ∧ st'.freedPages = st.freedPages + classPages st c
      ∧ classPages st' c = 0 := by
  induction addrs with
  | nil =>
    intro st hI _ hmem
    have hz : classPages st c = 0 := classPages_zero hI (fun x hx =>
      absurd ((hmem x).mpr hx) (List.not_mem_nil x))
    exact ⟨st, rfl, by omega, by omega, hz⟩
  | cons a rest ih =>
    intro st hI hnd hmem
    have hlivea : isLiveOf st c a := (hmem a).mp (List.mem_cons_self ..)
    obtain ⟨st1, hkf, hI1, hliff, hnp, hpa, hfp, hle, hother⟩ := kfree_spec hI hlivea
    obtain ⟨hanotin, hndrest⟩ := List.nodup_cons.mp hnd
    have hmem1 : ∀ x, x ∈ rest ↔ isLiveOf st1 c x := by
      intro x
      rw [hliff]
      constructor
      · intro hx
        refine ⟨(hmem x).mp (List.mem_cons_of_mem _ hx), ?_⟩
        intro he
        rw [he] at hx
        exact hanotin hx
      · rintro ⟨hlx, hne⟩
        rcases List.mem_cons.mp ((hmem x).mpr hlx) with he | hx
        · exact absurd he hne
        · exact hx
    obtain ⟨st', hseq, hpa', hfp', hz'⟩ := ih st1 hI1 hndrest hmem1
    refine ⟨st', ?_, by omega, by omega, hz'⟩
    show kfreeSeq (a :: rest) st = some st'
    simp only [kfreeSeq, hkf]
    exact hseq

/-! ## Claim theorems -/

/-- **C9** (confirmed). `allocate_pid()` returns the current counter value and
    then increments it: `k` sequential calls starting from counter `n` return
    `n, n+1, …, n+k-1` — strictly increasing, pairwise distinct, all below
    the final counter value (so no later call can ever repeat one, and
    `freeproc` does not touch the counter at all); in particular the first 5
    calls after initialization (`nextpid = 1`) return 1, 2, 3, 4, 5. -/
theorem allocpid_monotone_fresh (k n : Nat) :
    (allocpids k n).1 = (List.range k).map (fun j => n + j)
    ∧ (allocpids k n).2 = n + k
    ∧ ((allocpids k n).1).Pairwise (· < ·)
    ∧ (∀ x, x ∈ (allocpids k n).1 → x < (allocpids k n).2)
    ∧ (allocpids 5 1).1 = [1, 2, 3, 4, 5]
    ∧ (∀ st i, (freeprocAt st i).nextpid = st.nextpid) := by
  obtain ⟨h1, h2⟩ := Prod.mk.injEq .. ▸ (allocpids_eq k n)
  refine ⟨h1, h2, ?_, ?_, by decide, fun st i => rfl⟩
  · rw [h1]
    exact (List.pairwise_lt_range k).map _ (fun a b hab => by omega)
  · intro x hx
    rw [h1] at hx
    rw [h2]
    obtain ⟨j, hj, rfl⟩ := List.mem_map.mp hx
    have := List.mem_range.mp hj
    omega

/-- **C1** (code bug). The claim says every collaborator-allocation failure
    in `allocproc()` is reported to the caller as a failure result.  The
    trapframe-page and page-table failures do behave as claimed (failure
    result, slot left `UNUSED`, page-table failure fully unwound by
    `freeproc`), but the kernel-stack `allocpage()` result is stored
    unchecked (proc.c line 158): when it fails, `allocproc` `succeeds`,
    handing out a process with a null kernel stack — contradicting both the
    claim and the function's own header comment ("If there are no free
    procs, or a memory allocation fails, return 0").  An
    open-file-table allocation failure panics (line 171) instead of
    returning failure. -/
theorem allocproc_failure_paths :
    (allocproc { tf := none, ks := some 22, pt := some (33, 44), ofile := some 55 } bootTable2).1
      = AllocRes.allocFail
    ∧ (((allocproc { tf := none, ks := some 22, pt := some (33, 44), ofile := some 55 }
        bootTable2).2.procs.getD 0 default).state = Procstate.UNUSED)
    ∧ (allocproc { tf := some 11, ks := some 22, pt := none, ofile := some 55 } bootTable2).1
      = AllocRes.allocFail
    ∧ (((allocproc { tf := some 11, ks := some 22, pt := none, ofile := some 55 }
        bootTable2).2.procs.getD 0 default).state = Procstate.UNUSED)
    ∧ (((allocproc { tf := some 11, ks := some 22, pt := none, ofile := some 55 }
        bootTable2).2.procs.getD 0 default).trapframe = 0)
    ∧ (allocproc { tf := some 11, ks := none, pt := some (33, 44), ofile := some 55 } bootTable2).1
      = AllocRes.ok 0
    ∧ (((allocproc { tf := some 11, ks := none, pt := some (33, 44), ofile := some 55 }
        bootTable2).2.procs.getD 0 default).kstack = 0)
    ∧ (allocproc { tf := some 11, ks := some 22, pt := some (33, 44), ofile := none } bootTable2).1
      = AllocRes.panicked := by
  decide

/-- **C2** (counterexample). As stated the claim is false on the code:
    `allocproc()` never writes `p->state`, so a successfully allocated slot
    has *not* left the `UNUSED` state through the allocation, and a second
    sequential call (no intervening free; the first caller has merely
    released the slot lock, without which the second scan could not even
    pass the slot) finds the very same slot free again and returns it —
    the slots are not pairwise distinct and the table is never exhausted. -/
theorem allocproc_repeat_returns_same_slot :
    (allocproc allOkOracle bootTable2).1 = AllocRes.ok 0
    ∧ (((allocproc allOkOracle bootTable2).2.procs.getD 0 default).state = Procstate.UNUSED)
    ∧ (allocproc allOkOracle (allocproc allOkOracle bootTable2).2).1 = AllocRes.ok 0 := by
  decide

/-- **C2** (amended). `allocproc()` itself does not move a slot out of
    `UNUSED`; what holds on the code is the scenario as its callers execute
    it: starting from a table of `N` all-free slots, with the collaborator
    allocations succeeding, and with each successful caller marking its new
    process `RUNNABLE` (and releasing the slot lock) before the next call —
    exactly what `userinit`/`fork` do — the first `N` calls succeed and
    return the pairwise-distinct slots `0, …, N-1`, every allocated slot has
    left the free state by the end of its round, and the `(N+1)`-st call
    fails with the no-free-slot result, the table untouched. -/
theorem allocproc_fills_table_then_noSlot (o : AllocOracle) (tfp ofp : Nat) (ptv : Nat × Nat)
    (htf : o.tf = some tfp) (hpt : o.pt = some ptv) (hof : o.ofile = some ofp)
    (st0 : PTState) (hall : ∀ j, j < st0.procs.length →
      (st0.procs.getD j default).state = Procstate.UNUSED) :
    (allocRounds o st0.procs.length st0).1 = (List.range st0.procs.length).map some
    ∧ ((allocRounds o st0.procs.length st0).1).Nodup
    ∧ (∀ j, j < st0.procs.length →
        ¬ ((allocRounds o st0.procs.length st0).2.procs.getD j default).state = Procstate.UNUSED)
    ∧ allocproc o (allocRounds o st0.procs.length st0).2
        = (AllocRes.noSlot, (allocRounds o st0.procs.length st0).2) := by
  obtain ⟨h1, h2, h3⟩ := allocRounds_from_mixed o tfp ofp ptv htf hpt hof
    st0.procs.length st0 0 (by omega) (fun j hj => absurd hj (by omega))
    (fun j _ hj => hall j (by omega))
  have hrange : (allocRounds o st0.procs.length st0).1
      = (List.range st0.procs.length).map some := by
    rw [h1, List.range_eq_range']
  refine ⟨hrange, ?_, fun j hj => h3 j (by omega), ?_⟩
  · rw [hrange]
    exact (List.nodup_range _).map (fun a b => by simp)
  · exact allocproc_noSlot o _ (findUnused_eq_none _ (fun j hj => h3 j (by rw [h2] at hj; omega)))

/-- Witness for `allocproc_fills_table_then_noSlot` on a concrete two-slot
    boot table. -/
theorem allocproc_fills_table_then_noSlot_witness :
    (allocRounds allOkOracle 2 bootTable2).1 = [some 0, some 1]
    ∧ allocproc allOkOracle (allocRounds allOkOracle 2 bootTable2).2
      = (AllocRes.noSlot, (allocRounds allOkOracle 2 bootTable2).2) := by
  have h := allocproc_fills_table_then_noSlot allOkOracle 11 55 (33, 44) rfl rfl rfl
    bootTable2 (by decide)
  exact ⟨h.1.trans (by rfl), h.2.2.2⟩

/-- **C3** (counterexample). `freeproc` does *not* clear every scalar/pointer
    field the claim lists: the kernel-stack pointer (page freed at proc.c
    lines 100-101, field left), the signal-action-table pointer (line 119)
    and the queued-signal-frame pointer (line 122) all retain the previous
    occupant's values. -/
theorem freeproc_leaves_kstack_sig_pointers :
    (freeproc deadOccupant).kstack = 42
    ∧ ¬ (freeproc deadOccupant).kstack = 0
    ∧ (freeproc deadOccupant).sig_act = 9
    ∧ (freeproc deadOccupant).sig_frame = 13 := by
  decide

/-- **C3** (amended). `freeproc` (lock held) sets the slot's scalar fields —
    pid, size, parent, name, wait channel, kill flag, exit status, and the
    trapframe / page-table / VMA / robust-list / open-file pointers — to
    their zero/sentinel values and moves the slot to the free state; the
    kernel-stack, signal-action-table and queued-signal-frame pointers are
    *released but left dangling* (not cleared).  A subsequent `allocproc()`
    that returns this slot nonetheless shows no residual data from the
    previous occupant: name empty, pid freshly assigned from the counter,
    VMA list the collaborator's fresh one, open-file table all-zero, and the
    three dangling pointers freshly overwritten. -/
theorem freeproc_clears_and_realloc_is_fresh (p : Proc) (o : AllocOracle) (st : PTState)
    (i tfp ofp : Nat) (ptv : Nat × Nat)
    (htf : o.tf = some tfp) (hpt : o.pt = some ptv) (hof : o.ofile = some ofp)
    (hslot : st.procs.getD i default = freeproc p)
    (hok : (allocproc o st).1 = AllocRes.ok i) :
    ((freeproc p).pid = 0 ∧ (freeproc p).trapframe = 0 ∧ (freeproc p).ofile = none
      ∧ (freeproc p).pagetable = 0 ∧ (freeproc p).vma = 0 ∧ (freeproc p).robust_list = 0
      ∧ (freeproc p).sz = 0 ∧ (freeproc p).parent = 0 ∧ cstrEmpty (freeproc p).name
      ∧ (freeproc p).chan = 0 ∧ (freeproc p).killed = 0 ∧ (freeproc p).xstate = 0
      ∧ (freeproc p).state = Procstate.UNUSED)
    ∧ ((freeproc p).kstack = p.kstack ∧ (freeproc p).sig_act = p.sig_act
      ∧ (freeproc p).sig_frame = p.sig_frame)
    ∧ (cstrEmpty ((allocproc o st).2.procs.getD i default).name
      ∧ ((allocproc o st).2.procs.getD i default).pid = st.nextpid
      ∧ ((allocproc o st).2.procs.getD i default).vma = ptv.2
      ∧ ((allocproc o st).2.procs.getD i default).ofile = some (List.replicate NOFILE 0)
      ∧ ((allocproc o st).2.procs.getD i default).sig_act = 0
      ∧ ((allocproc o st).2.procs.getD i default).sig_frame = 0
      ∧ ((allocproc o st).2.procs.getD i default).trapframe = tfp
      ∧ ((allocproc o st).2.procs.getD i default).kstack = o.ks.getD 0
      ∧ ((allocproc o st).2.procs.getD i default).pagetable = ptv.1) := by
  have hfind := allocproc_ok_inv o st i hok
  have hi : i < st.procs.length := (findUnused_bounds st.procs i hfind).1
  have hstep := allocproc_ok o st i tfp ofp ptv htf hpt hof hfind
  have hget : (allocproc o st).2.procs.getD i default
      = allocatedProc (st.procs.getD i default) st.nextpid tfp (o.ks.getD 0) ptv := by
    rw [hstep]
    exact getD_set_self hi _ _
  rw [hget, hslot]
  refine ⟨⟨rfl, rfl, rfl, rfl, rfl, rfl, rfl, rfl, cstrEmpty_setName0 p.name, rfl, rfl, rfl, rfl⟩,
    ⟨rfl, rfl, rfl⟩, ?_, rfl, rfl, rfl, rfl, rfl, rfl, rfl, rfl⟩
  show cstrEmpty (setName0 p.name)
  exact cstrEmpty_setName0 p.name

/-- Witness for `freeproc_clears_and_realloc_is_fresh`: a freed dead
    occupant's slot is reallocated with fresh contents. -/
theorem freeproc_clears_and_realloc_is_fresh_witness :
    cstrEmpty ((allocproc allOkOracle ⟨[freeproc deadOccupant], 8⟩).2.procs.getD 0 default).name
    ∧ ((allocproc allOkOracle ⟨[freeproc deadOccupant], 8⟩).2.procs.getD 0 default).pid = 8 :=
  have h := freeproc_clears_and_realloc_is_fresh deadOccupant allOkOracle
    ⟨[freeproc deadOccupant], 8⟩ 0 11 55 (33, 44) rfl rfl rfl (by decide) (by decide)
  ⟨h.2.2.1, h.2.2.2.1⟩

/-- **C5** (confirmed). Concrete scenario A on the slab allocator, starting
    from the post-`kmallocinit` state (which has no slab node — in
    particular none for size class 32): two `kmalloc(32)` calls return
    distinct addresses (8352 and 8384) inside the same page; freeing the
    first and allocating 32 bytes again returns exactly the freed address. -/
theorem kmalloc_scenarioA :
    (kmallocInit 10).nodes = []
    ∧ (kmalloc 32 (kmallocInit 10)).1 = some 8352
    ∧ (kmalloc 32 (kmalloc 32 (kmallocInit 10)).2).1 = some 8384
    ∧ ¬ (8352 : Nat) = 8384
    ∧ PGROUNDDOWN 8352 = PGROUNDDOWN 8384
    ∧ (kfree 8352 (kmalloc 32 (kmalloc 32 (kmallocInit 10)).2).2).isSome = true
    ∧ (kmalloc 32 ((kfree 8352 (kmalloc 32 (kmalloc 32 (kmallocInit 10)).2).2).getD
        (kmallocInit 10))).1 = some 8352 := by
  decide

/-- **C6** (confirmed). `kmalloc` clamps a size below `KMEM_OBJ_MIN_SIZE`
    upward to the minimum and proceeds exactly as an allocation of the
    minimum size would (non-fatal, diagnostic only), and rejects any size
    above `KMEM_OBJ_MAX_SIZE`; in particular `kmalloc(4049)` fails, leaving
    the allocator untouched. -/
theorem kmalloc_clamps_small_rejects_large (st : KState) (s : Nat) :
    (KMEM_OBJ_MAX_SIZE < s → kmalloc s st = (none, st))
    ∧ (s < KMEM_OBJ_MIN_SIZE → kmalloc s st = kmalloc KMEM_OBJ_MIN_SIZE st)
    ∧ kmalloc 4049 st = (none, st) := by
  refine ⟨?_, ?_, ?_⟩
  · intro h
    have h32 : ¬ s < KMEM_OBJ_MIN_SIZE := by
      simp only [KMEM_OBJ_MIN_SIZE, KMEM_OBJ_MAX_SIZE] at *
      omega
    simp [kmalloc, h32, h]
  · intro h
    simp [kmalloc, h]
  · simp [kmalloc, KMEM_OBJ_MIN_SIZE, KMEM_OBJ_MAX_SIZE]

/-- Witness for the bordered statements of `kmalloc_clamps_small_rejects_large`. -/
theorem kmalloc_clamps_small_rejects_large_witness :
    kmalloc 4100 (kmallocInit 3) = (none, kmallocInit 3)
    ∧ kmalloc 5 (kmallocInit 3) = kmalloc 32 (kmallocInit 3) :=
  ⟨(kmalloc_clamps_small_rejects_large (kmallocInit 3) 4100).1 (by decide),
   (kmalloc_clamps_small_rejects_large (kmallocInit 3) 5).2.1 (by decide)⟩

/-- **C4** (code bug). In a successful `allocproc()`, the open-file table is
    obtained by `kmalloc(NOFILE * sizeof(struct file*))` — a small slab
    object — but line 177 then executes `memset(p->ofile, 0, PGSIZE)`,
    zero-filling a whole page's worth of bytes starting at the object: the
    write covers bytes outside the table's own object (clobbering every
    later object slot of the containing slab node) and even runs past the
    end of the node's page.  Concretely (with `NOFILE = 16`): the table
    object lands at 8256 inside the slab page [8192, 12288); the memset
    writes [8256, 12352), which includes byte 8384 (the next object slot of
    the node, outside the table's own `NOFILE*8 = 128` bytes) and byte
    12288 (beyond the page). -/
theorem ofile_memset_overruns_object :
    (kmalloc (NOFILE * 8) (kmallocInit 10)).1 = some 8256
    ∧ PGROUNDDOWN 8256 = 8192
    ∧ ((kmalloc (NOFILE * 8) (kmallocInit 10)).2.nodes.find?
        (fun n => n.base = 8192)).isSome = true
    ∧ writesByte 8256 ofileMemsetLen 8384
    ∧ ¬ writesByte 8256 (NOFILE * 8) 8384
    ∧ writesByte 8256 ofileMemsetLen 12288
    ∧ ¬ 8256 + ofileMemsetLen ≤ 8192 + PGSIZE := by
  decide

/-- **C10** (confirmed). Every iteration of the `scheduler()` loop takes and
    clears the staged-process slot; a context switch happens exactly when a
    process was staged and its state, observed under its freshly acquired
    lock, is still `RUNNABLE` — the process is then marked `RUNNING` and
    recorded as the unit's current process; otherwise no switch occurs and
    the loop continues with the table and current-process marker
    untouched. -/
theorem schedulerIter_switches_only_runnable (st : SchedState) :
    ((schedulerIter st).2.runproc = none)
    ∧ (∀ i, (schedulerIter st).1 = SchedEvent.switched i ↔
        st.runproc = some i ∧ (st.procs.getD i default).state = Procstate.RUNNABLE)
    ∧ (∀ i, (schedulerIter st).1 = SchedEvent.switched i →
        ((schedulerIter st).2.procs.getD i default).state = Procstate.RUNNING
        ∧ (schedulerIter st).2.cpuProc = some i)
    ∧ (∀ i, (schedulerIter st).1 = SchedEvent.skipped i →
        (schedulerIter st).2.procs = st.procs ∧ (schedulerIter st).2.cpuProc = st.cpuProc) := by
  match hrun : st.runproc with
  | none =>
    have hiter : schedulerIter st = (.idled, { st with runproc := none }) := by
      simp [schedulerIter, hrun]
    rw [hiter]
    refine ⟨rfl, fun i => ?_, fun i h => ?_, fun i h => ?_⟩
    · simp
    · cases h
    · cases h
  | some j =>
    have hiter : schedulerIter st =
        if (st.procs.getD j default).state = Procstate.RUNNABLE then
          (SchedEvent.switched j, ⟨none, some j, st.procs.set j { st.procs.getD j default with state := Procstate.RUNNING }⟩)
        else (.skipped j, { st with runproc := none }) := by
      simp only [schedulerIter, hrun]
    by_cases hs : (st.procs.getD j default).state = Procstate.RUNNABLE
    · have hj : j < st.procs.length := by
        by_contra hlen
        have hdd : st.procs.getD j default = default := by
          simp [List.getD, List.getElem?_eq_none (by omega : st.procs.length ≤ j)]
        rw [hdd, default_proc_state] at hs
        exact absurd hs (by decide)
      rw [hiter, if_pos hs]
      refine ⟨rfl, fun i => ?_, fun i h => ?_, fun i h => ?_⟩
      · constructor
        · intro h
          cases h
          exact ⟨rfl, hs⟩
        · intro ⟨h1, h2⟩
          cases h1
          rfl
      · cases h
        exact ⟨by rw [getD_set_self hj], rfl⟩
      · cases h
    · rw [hiter, if_neg hs]
      refine ⟨rfl, fun i => ?_, fun i h => ?_, fun i h => ?_⟩
      · constructor
        · intro h
          cases h
        · intro ⟨h1, h2⟩
          cases h1
          exact absurd h2 hs
      · cases h
      · cases h
        exact ⟨rfl, rfl⟩

/-- A one-slot scheduler state with a runnable staged process. -/
def oneRunnableStaged : SchedState := ⟨some 0, none, [{ zeroProc with state := Procstate.RUNNABLE }]⟩

/-- Witness for `schedulerIter_switches_only_runnable` at a concrete state:
    one staged runnable process gets switched into. -/
theorem schedulerIter_switches_only_runnable_witness :
    (schedulerIter oneRunnableStaged).1 = SchedEvent.switched 0 :=
  ((schedulerIter_switches_only_runnable oneRunnableStaged).2.1 0).mpr ⟨rfl, by decide⟩

/-- **C7** (confirmed). Over every state reachable through the allocator's
    own interface, a successful `kmalloc(s)` for a size in the supported
    range returns an address that is 16-byte aligned, distinct from every
    currently-live object of every size class, and lying in the object
    region of exactly one slab node — the node recovered by rounding the
    address down to its containing page — whose object region never extends
    past the end of that page. -/
theorem kmalloc_fresh_unique_node {st : KState} (hre : KReach st) {s a : Nat} {st' : KState}
    (_hs1 : KMEM_OBJ_MIN_SIZE ≤ s) (_hs2 : s ≤ KMEM_OBJ_MAX_SIZE)
    (hres : kmalloc s st = (some a, st')) :
    a % 16 = 0 ∧ ¬ isLive st a
      ∧ ∃ n, n ∈ st'.nodes ∧ inRegion n a ∧ PGROUNDDOWN a = n.base
        ∧ n.objAddr + n.table.length * n.objSize ≤ n.base + PGSIZE
        ∧ ∀ m, m ∈ st'.nodes → inRegion m a → m = n := by
  have hI := kreach_inv hre
  obtain ⟨hI2, hfr, hsucc⟩ := kmalloc_spec hI s
  rw [hres] at hI2 hsucc
  obtain ⟨halign, hfresh, m, hm, hreg⟩ := hsucc a rfl
  have hwfm : NodeWF m := hI2.node_wf m hm
  obtain ⟨i, hilt, hia⟩ := hreg
  refine ⟨halign, hfresh, m, hm, ⟨i, hilt, hia⟩, ?_, NodeWF.region_end m hwfm, ?_⟩
  · rw [hia]; exact hwfm.pgrounddown hilt
  · intro m2 hm2 hreg2
    by_cases hb : m2.base = m.base
    · exact node_unique hI2.bases_nodup hm2 hm hb
    · exact (region_disjoint (hI2.node_wf m2 hm2) hwfm hb hreg2 ⟨i, hilt, hia⟩).elim

/-- Witness for `kmalloc_fresh_unique_node`: the first 32-byte allocation
    from a fresh 2-page state returns address 8352 (page 8192, object region
    base 8352), with all the stated properties. -/
theorem kmalloc_fresh_unique_node_witness :
    (8352 : Nat) % 16 = 0 ∧ ¬ isLive (kmallocInit 2) 8352
      ∧ ∃ n, n ∈ (kmalloc 32 (kmallocInit 2)).2.nodes ∧ inRegion n 8352
        ∧ PGROUNDDOWN 8352 = n.base
        ∧ n.objAddr + n.table.length * n.objSize ≤ n.base + PGSIZE
        ∧ ∀ m, m ∈ (kmalloc 32 (kmallocInit 2)).2.nodes → inRegion m 8352 → m = n :=
  @kmalloc_fresh_unique_node (kmallocInit 2) (KReach.init 2) 32 8352
    (kmalloc 32 (kmallocInit 2)).2 (by decide) (by decide) (by decide)

/-- **C8** (confirmed). Freeing, one call at a time, a duplicate-free
    enumeration of every live object of one size class — in particular every
    object obtained from the class's `N` fully-populated slab nodes — always
    succeeds: the fatal consistency-check panic of `kfree` (node with zero
    live count missing from its allocator's list, modelled as the `none`
    result) never fires, exactly `classPages st c = N` pages go back to the
    page allocator, and the class ends with no backing page at all. -/
theorem kfree_all_returns_pages {st : KState} (hre : KReach st) {c : Nat}
    (addrs : List Nat) (hnd : addrs.Nodup)
    (hmem : ∀ x, x ∈ addrs ↔ isLiveOf st c x) :
    ∃ st', kfreeSeq addrs st = some st'
      ∧ st'.pagesAvail = st.pagesAvail + classPages st c
      ∧ st'.freedPages = st.freedPages + classPages st c
      ∧ classPages st' c = 0 :=
  kfreeSeq_spec addrs st (kreach_inv hre) hnd hmem

/-- Witness for `kfree_all_returns_pages`: after `kmalloc 4048` from a fresh
    2-page state, class 4048 has one fully populated node (capacity 1) whose
    single live object is 8224; freeing it returns the one page. -/
theorem kfree_all_returns_pages_witness :
    (∀ x, x ∈ [8224] ↔ isLiveOf (kmalloc 4048 (kmallocInit 2)).2 4048 x)
    ∧ ∃ st', kfreeSeq [8224] (kmalloc 4048 (kmallocInit 2)).2 = some st'
      ∧ st'.pagesAvail = (kmalloc 4048 (kmallocInit 2)).2.pagesAvail
          + classPages (kmalloc 4048 (kmallocInit 2)).2 4048
      ∧ st'.freedPages = (kmalloc 4048 (kmallocInit 2)).2.freedPages
          + classPages (kmalloc 4048 (kmallocInit 2)).2 4048
      ∧ classPages st' 4048 = 0 := by
  have hmem : ∀ x, x ∈ [8224] ↔ isLiveOf (kmalloc 4048 (kmallocInit 2)).2 4048 x := by
    intro x
    constructor
    · intro hx
      have hx8 : x = 8224 := List.mem_singleton.mp hx
      rw [hx8]
      refine ⟨⟨8192, 4048, 8224, 255, 1, [255]⟩, by decide, rfl, 0, ⟨by decide, ?_⟩, by decide⟩
      intro l hl
      have hl0 : l = [] := chain_end_nil (by decide) hl
      rw [hl0]
      exact List.not_mem_nil 0
    · intro hlive
      obtain ⟨m, hm, hsz, j, hjL, hjx⟩ := hlive
      have honly : ∀ m2 ∈ (kmalloc 4048 (kmallocInit 2)).2.nodes, m2.objSize = 4048 →
          m2 = (⟨8192, 4048, 8224, 255, 1, [255]⟩ : KNode) := by decide
      have hme := honly m hm hsz
      rw [hme] at hjL hjx
      have hjlt : j < 1 := hjL.1
      have hj0 : j = 0 := by omega
      rw [hj0] at hjx
      rw [hjx]
      decide
  exact ⟨hmem, kfree_all_returns_pages (KReach.stepMalloc 4048 (KReach.init 2))
    [8224] (by decide) hmem⟩

end XV6
